import Mathlib

/-!
Verification of the `ego-binary-tree` crate (`src/binary_tree.rs`, `src/macros.rs`).

The crate wraps an `ego_tree::Tree<Option<T>>` (a general arity tree whose
node values are `Option T`): a `none` value marks a placeholder child slot,
a `some` value marks a populated node.  We embed the underlying storage as a
rose tree `ETree (Option α)` and translate each public operation of
`BinaryTree`, `BinaryNodeRef` and `BinaryNodeMut` into a pure function on it.
Mutable views (`BinaryNodeMut`) are embedded as paths into the whole tree:
navigation appends a step, a mutation rewrites the subtree at the path.
-/

namespace EgoBinaryTree

universe u

/-- The underlying `ego_tree::Tree` storage: a rose tree.  Every node holds a
value and an ordered list of children (`append` pushes at the back). -/
inductive ETree (α : Type u) : Type u where
  | node (value : α) (children : List (ETree α)) : ETree α

/-- Value stored at the root node of a subtree (`NodeRef::value`). -/
def ETree.value : ETree α → α
  | .node v _ => v

/-- Child list of the root node of a subtree (`NodeRef::children`). -/
def ETree.children : ETree α → List (ETree α)
  | .node _ cs => cs

@[simp] theorem ETree.value_node (v : α) (cs : List (ETree α)) :
    (ETree.node v cs).value = v := rfl

@[simp] theorem ETree.children_node (v : α) (cs : List (ETree α)) :
    (ETree.node v cs).children = cs := rfl

/-- Result of an API call that can either hit an internal `expect` (the
invariant-violation branch, a Rust panic), report an absent child (`None`
returned to the caller), or return a view. -/
inductive VRes (β : Type u) : Type u where
  | panic : VRes β
  | absent : VRes β
  | present (x : β) : VRes β

/-- A navigation step of a mutable view: `NodeMut::first_child` or
`NodeMut::last_child`. -/
inductive Dir : Type where
  | first : Dir
  | last : Dir

deriving instance DecidableEq for Dir

/-- A logical child position: left or right. -/
inductive Side : Type where
  | L : Side
  | R : Side

deriving instance DecidableEq for Side

/-- A placeholder node as created by `append(None)`: value `none`, no
children. -/
def placeholder (α : Type u) : ETree (Option α) := ETree.node none []

/-- `BinaryTree::new(root_value)`: a tree whose root holds
`Some(root_value)` and has two appended `None` children. -/
def BinaryTree.new (v : α) : ETree (Option α) :=
  ETree.node (some v) [placeholder α, placeholder α]

/-- `BinaryTree::root`: the shared view of the root is the whole tree. -/
def BinaryTree.root (t : ETree (Option α)) : ETree (Option α) := t

/-- `BinaryTree::root_mut`: the exclusive view of the root, as a path, is the
empty path. -/
def BinaryTree.rootMutPath : List Dir := []

namespace BinaryNodeRef

/-- `BinaryNodeRef::left`: `children().next()` (panics when there is no
child), then `None` when the child's value slot is `None`, else the child
view. -/
def left (t : ETree (Option α)) : VRes (ETree (Option α)) :=
  match t.children.head? with
  | none => .panic
  | some l =>
    match l.value with
    | none => .absent
    | some _ => .present l

/-- `BinaryNodeRef::right`: `children().next()` twice (each panics when the
iterator is exhausted), then `None` when the second child's value slot is
`None`, else the child view. -/
def right (t : ETree (Option α)) : VRes (ETree (Option α)) :=
  match t.children with
  | [] => .panic
  | [_] => .panic
  | _ :: r :: _ =>
    match r.value with
    | none => .absent
    | some _ => .present r

/-- `BinaryNodeRef::value`: the node's value slot, `.expect("exists")`; the
`none` result is the panic branch. -/
def value (t : ETree (Option α)) : Option α := t.value

end BinaryNodeRef

namespace BinaryNodeMut

/-- `BinaryNodeMut::left_inner`: `first_child()`, `none` is the
`.expect("exists")` panic branch. -/
def left_inner (t : ETree (Option α)) : Option (ETree (Option α)) :=
  t.children.head?

/-- `BinaryNodeMut::right_inner`: `last_child()`, `none` is the
`.expect("exists")` panic branch. -/
def right_inner (t : ETree (Option α)) : Option (ETree (Option α)) :=
  t.children.getLast?

/-- `BinaryNodeMut::left`: the left child subtree when its value slot is
populated, `absent` when it is a placeholder, `panic` when missing. -/
def left (t : ETree (Option α)) : VRes (ETree (Option α)) :=
  match left_inner t with
  | none => .panic
  | some l =>
    match l.value with
    | none => .absent
    | some _ => .present l

/-- `BinaryNodeMut::right`: the right child subtree when its value slot is
populated, `absent` when it is a placeholder, `panic` when missing. -/
def right (t : ETree (Option α)) : VRes (ETree (Option α)) :=
  match right_inner t with
  | none => .panic
  | some r =>
    match r.value with
    | none => .absent
    | some _ => .present r

/-- `BinaryNodeMut::value`: the node's value slot, `.expect("exists")`; the
`none` result is the panic branch. -/
def value (t : ETree (Option α)) : Option α := t.value

/-- The body of `set_left` / `set_right` applied to the selected child
`c`: `*c.value() = Some(value); if !c.has_children() { c.append(None);
c.append(None); }`. -/
def populate (v : α) : ETree (Option α) → ETree (Option α)
  | .node _ cs =>
    ETree.node (some v) (if cs.isEmpty then [placeholder α, placeholder α] else cs)

/-- `BinaryNodeMut::set_left` acting on the view's subtree: rewrites the
first child (`none` is the `first_child().expect` panic branch). -/
def set_left (v : α) : ETree (Option α) → Option (ETree (Option α))
  | .node w cs =>
    match cs with
    | [] => none
    | l :: rest => some (ETree.node w (populate v l :: rest))

/-- `BinaryNodeMut::set_right` acting on the view's subtree: rewrites the
last child (`none` is the `last_child().expect` panic branch). -/
def set_right (v : α) : ETree (Option α) → Option (ETree (Option α))
  | .node w cs =>
    match cs.getLast? with
    | none => none
    | some r => some (ETree.node w (cs.dropLast ++ [populate v r]))

/-- Writing through the `&mut T` returned by `BinaryNodeMut::value`:
replaces the payload of a populated slot (`none` is the `.expect("exists")`
panic branch). -/
def write_value (v : α) : ETree (Option α) → Option (ETree (Option α))
  | .node w cs =>
    match w with
    | none => none
    | some _ => some (ETree.node (some v) cs)

end BinaryNodeMut

/-- Follow a path of `first_child` / `last_child` steps from the root of a
subtree; `none` when a step has no child to follow. -/
def resolve : List Dir → ETree α → Option (ETree α)
  | [], t => some t
  | .first :: p, t =>
    match t.children.head? with
    | none => none
    | some c => resolve p c
  | .last :: p, t =>
    match t.children.getLast? with
    | none => none
    | some c => resolve p c

/-- Rewrite the subtree at the end of a path with a fallible local
transformation `f`; `none` when the path cannot be followed or `f` fails. -/
def modifyAt (f : ETree α → Option (ETree α)) : List Dir → ETree α → Option (ETree α)
  | [], t => f t
  | .first :: p, .node v cs =>
    match cs with
    | [] => none
    | c :: rest => (modifyAt f p c).map fun c2 => ETree.node v (c2 :: rest)
  | .last :: p, .node v cs =>
    match cs.getLast? with
    | none => none
    | some c => (modifyAt f p c).map fun c2 => ETree.node v (cs.dropLast ++ [c2])

/-- `n.set_left(v)` on the exclusive view `n` of the node at path `p` in
tree `t`. -/
def treeSetLeft (v : α) (p : List Dir) (t : ETree (Option α)) : Option (ETree (Option α)) :=
  modifyAt (BinaryNodeMut.set_left v) p t

/-- `n.set_right(v)` on the exclusive view `n` of the node at path `p` in
tree `t`. -/
def treeSetRight (v : α) (p : List Dir) (t : ETree (Option α)) : Option (ETree (Option α)) :=
  modifyAt (BinaryNodeMut.set_right v) p t

/-- `*n.value() = v` on the exclusive view `n` of the node at path `p`. -/
def treeWriteValue (v : α) (p : List Dir) (t : ETree (Option α)) : Option (ETree (Option α)) :=
  modifyAt (BinaryNodeMut.write_value v) p t

/-- Positional child access: index 0 for `L`, index 1 for `R`. -/
def childS : Side → ETree α → Option (ETree α)
  | .L, t => t.children.get? 0
  | .R, t => t.children.get? 1

/-- Follow a list of left/right positions. -/
def sideResolve : List Side → ETree α → Option (ETree α)
  | [], t => some t
  | s :: q, t =>
    match childS s t with
    | none => none
    | some c => sideResolve q c

/-- The value layout of a tree: the value slot found at a left/right
position, `none` when the position does not exist or is a placeholder. -/
def valueAt (q : List Side) (t : ETree (Option α)) : Option α :=
  (sideResolve q t).bind fun s => s.value

/-- The logical side a mutable-navigation step lands on (in a two-children
node, `first_child` is the left slot and `last_child` the right slot). -/
def dirSide : Dir → Side
  | .first => .L
  | .last => .R

/-- Sides of a mutable-view path. -/
def sidesOf (p : List Dir) : List Side := p.map dirSide

/-- `Seg p q`: `p` is an initial segment of `q`. -/
def Seg : List Side → List Side → Prop
  | [], _ => True
  | _ :: _, [] => False
  | a :: p, b :: q => a = b ∧ Seg p q

instance instDecidableSeg : (p q : List Side) → Decidable (Seg p q)
  | [], _ => .isTrue trivial
  | _ :: _, [] => .isFalse fun h => h
  | a :: p, b :: q =>
    have : Decidable (Seg p q) := instDecidableSeg p q
    inferInstanceAs (Decidable (a = b ∧ Seg p q))

/-- The storage-shape invariant actually maintained by the code: a populated
node has exactly two children, a placeholder has none, recursively. -/
inductive StrongInv : ETree (Option α) → Prop where
  | mk (v : Option α) (cs : List (ETree (Option α)))
      (hpop : v.isSome → cs.length = 2)
      (hph : v = none → cs = [])
      (hch : ∀ c ∈ cs, StrongInv c) :
      StrongInv (ETree.node v cs)

/-- The shape stated by the spec: every populated node has exactly two
children and no node has exactly one child, recursively. -/
inductive TwoOrZero : ETree (Option α) → Prop where
  | mk (v : Option α) (cs : List (ETree (Option α)))
      (hpop : v.isSome → cs.length = 2)
      (hone : cs.length ≠ 1)
      (hch : ∀ c ∈ cs, TwoOrZero c) :
      TwoOrZero (ETree.node v cs)

/-- Reachable configurations `(t, p)`: the tree `t` was built from
`BinaryTree::new` by public operations and `p` is the path of an exclusive
view obtainable on it.  Constructors mirror the public API: `new`,
dropping views / `root_mut` (`reroot`), returning to the parent view
(`pop`), `BinaryNodeMut::left` / `right` navigation, `set_left` /
`set_right`, and writing through the `&mut` from `value`. -/
inductive RC : ETree (Option α) → List Dir → Prop where
  | new (v : α) : RC (BinaryTree.new v) []
  | reroot {t : ETree (Option α)} {p : List Dir} : RC t p → RC t []
  | pop {t : ETree (Option α)} {p : List Dir} {d : Dir} :
      RC t (p ++ [d]) → RC t p
  | goLeft {t sub l : ETree (Option α)} {p : List Dir} :
      RC t p → resolve p t = some sub →
      BinaryNodeMut.left sub = .present l → RC t (p ++ [.first])
  | goRight {t sub r : ETree (Option α)} {p : List Dir} :
      RC t p → resolve p t = some sub →
      BinaryNodeMut.right sub = .present r → RC t (p ++ [.last])
  | setL {t t' : ETree (Option α)} {p : List Dir} (v : α) :
      RC t p → treeSetLeft v p t = some t' → RC t' (p ++ [.first])
  | setR {t t' : ETree (Option α)} {p : List Dir} (v : α) :
      RC t p → treeSetRight v p t = some t' → RC t' (p ++ [.last])
  | writeVal {t t' : ETree (Option α)} {p : List Dir} (v : α) :
      RC t p → treeWriteValue v p t = some t' → RC t' p

/-- Trees reachable from `BinaryTree::new` by public operations. -/
def Reachable (t : ETree (Option α)) : Prop := ∃ p, RC t p

/-- Shared views obtainable on a tree `t` through `root()` and shared
`left()` / `right()` navigation. -/
inductive SharedView (t : ETree (Option α)) : ETree (Option α) → Prop where
  | root : SharedView t t
  | stepL {s c : ETree (Option α)} :
      SharedView t s → BinaryNodeRef.left s = .present c → SharedView t c
  | stepR {s c : ETree (Option α)} :
      SharedView t s → BinaryNodeRef.right s = .present c → SharedView t c

/-- The nested construction specification accepted by the `binary_tree!`
syntax below the root value: nothing, a left entry, a right entry, or a
left entry followed by a right entry; each entry is a value together with a
further (possibly empty) specification, a leaf being a value with an empty
one. -/
inductive CSpec (α : Type u) : Type u where
  | empty : CSpec α
  | leftOnly (v : α) (ch : CSpec α) : CSpec α
  | rightOnly (v : α) (ch : CSpec α) : CSpec α
  | both (lv : α) (lch : CSpec α) (rv : α) (rch : CSpec α) : CSpec α

/-- The desugaring of the `binary_tree!` recursive arms: each arm issues
`set_left` / `set_right` on the current view `p` and recurses into the view
returned (left before right when both are present). -/
def applySpec : CSpec α → List Dir → ETree (Option α) → Option (ETree (Option α))
  | .empty, _, t => some t
  | .leftOnly v ch, p, t =>
    (treeSetLeft v p t).bind (applySpec ch (p ++ [.first]))
  | .rightOnly v ch, p, t =>
    (treeSetRight v p t).bind (applySpec ch (p ++ [.last]))
  | .both lv lch rv rch, p, t =>
    ((((treeSetLeft lv p t).bind (applySpec lch (p ++ [.first]))).bind
      (treeSetRight rv p)).bind (applySpec rch (p ++ [.last])))

/-- The `binary_tree! { root => children }` form: `BinaryTree::new(root)`,
then the desugared `set_left` / `set_right` calls starting from
`root_mut()`. -/
def macroBuild (r : α) (ch : CSpec α) : Option (ETree (Option α)) :=
  applySpec ch [] (BinaryTree.new r)

/-- Modelled from the spec: the value layout that the explicit
`BinaryTree::new` + `set_left` / `set_right` construction described by a
nested specification is meant to produce — the root value at the empty
position, each entry's value at its side, recursively, and no value at any
other position. -/
def specLayout : α → CSpec α → List Side → Option α
  | r, _, [] => some r
  | _, .empty, _ :: _ => none
  | _, .leftOnly v ch, .L :: q => specLayout v ch q
  | _, .leftOnly _ _, .R :: _ => none
  | _, .rightOnly _ _, .L :: _ => none
  | _, .rightOnly v ch, .R :: q => specLayout v ch q
  | _, .both lv lch _ _, .L :: q => specLayout lv lch q
  | _, .both _ _ rv rch, .R :: q => specLayout rv rch q

/-! ### Basic lemmas about navigation and the storage invariant -/

theorem ETree.eta (t : ETree α) : t = ETree.node t.value t.children := by
  cases t; rfl

@[simp] theorem resolve_nil (t : ETree α) : resolve [] t = some t := rfl

theorem resolve_cons_first (p : List Dir) (t : ETree α) :
    resolve (.first :: p) t =
      match t.children.head? with
      | none => none
      | some c => resolve p c := by
  cases t; rfl

theorem resolve_cons_last (p : List Dir) (t : ETree α) :
    resolve (.last :: p) t =
      match t.children.getLast? with
      | none => none
      | some c => resolve p c := by
  cases t; rfl

theorem resolve_append (p p' : List Dir) (t : ETree α) :
    resolve (p ++ p') t = (resolve p t).bind (resolve p') := by
  induction p generalizing t with
  | nil => simp
  | cons d p ih =>
    cases d with
    | first =>
      rw [List.cons_append, resolve_cons_first, resolve_cons_first]
      cases t.children.head? with
      | none => simp
      | some c => simp [ih]
    | last =>
      rw [List.cons_append, resolve_cons_last, resolve_cons_last]
      cases t.children.getLast? with
      | none => simp
      | some c => simp [ih]

theorem StrongInv.child {t c : ETree (Option α)} (h : StrongInv t)
    (hc : c ∈ t.children) : StrongInv c := by
  cases h with
  | mk v cs hpop hph hch => exact hch c hc

theorem StrongInv.pair {t : ETree (Option α)} (h : StrongInv t)
    (hv : t.value.isSome) : ∃ l r, t.children = [l, r] := by
  cases h with
  | mk v cs hpop hph hch =>
    have hlen : cs.length = 2 := hpop hv
    match cs, hlen with
    | [l, r], _ => exact ⟨l, r, rfl⟩

theorem StrongInv.empty_of_none {t : ETree (Option α)} (h : StrongInv t)
    (hv : t.value = none) : t.children = [] := by
  cases h with
  | mk v cs hpop hph hch => exact hph hv

theorem StrongInv.pop_of_ne_nil {t : ETree (Option α)} (h : StrongInv t)
    (hne : t.children ≠ []) : t.value.isSome := by
  cases hv : t.value with
  | none => exact absurd (h.empty_of_none hv) hne
  | some w => rfl

theorem strongInv_placeholder : StrongInv (placeholder α) := by
  refine .mk none [] (by simp) (fun _ => rfl) (by simp)

theorem strongInv_new (v : α) : StrongInv (BinaryTree.new v) := by
  refine .mk (some v) [placeholder α, placeholder α] (fun _ => rfl) (by simp) ?_
  intro c hc
  simp only [List.mem_cons, List.mem_singleton, List.not_mem_nil, or_false] at hc
  rcases hc with rfl | rfl <;> exact strongInv_placeholder

theorem resolve_strongInv {t s : ETree (Option α)} {p : List Dir}
    (hinv : StrongInv t) (h : resolve p t = some s) : StrongInv s := by
  induction p generalizing t with
  | nil => cases h; exact hinv
  | cons d p ih =>
    cases d with
    | first =>
      rw [resolve_cons_first] at h
      cases hc : t.children.head? with
      | none => rw [hc] at h; cases h
      | some c =>
        rw [hc] at h
        exact ih (hinv.child (List.mem_of_mem_head? hc)) h
    | last =>
      rw [resolve_cons_last] at h
      cases hc : t.children.getLast? with
      | none => rw [hc] at h; cases h
      | some c =>
        rw [hc] at h
        exact ih (hinv.child (List.mem_of_mem_getLast? hc)) h

/-! ### Lemmas about `modifyAt` -/

@[simp] theorem modifyAt_nil (f : ETree α → Option (ETree α)) (t : ETree α) :
    modifyAt f [] t = f t := rfl

theorem modifyAt_cons_first_match (f : ETree α → Option (ETree α)) (p : List Dir) (t : ETree α) :
    modifyAt f (.first :: p) t =
      match t.children with
      | [] => none
      | c :: rest => (modifyAt f p c).map fun c2 => ETree.node t.value (c2 :: rest) := by
  cases t; rfl

theorem modifyAt_cons_last_match (f : ETree α → Option (ETree α)) (p : List Dir) (t : ETree α) :
    modifyAt f (.last :: p) t =
      match t.children.getLast? with
      | none => none
      | some c =>
          (modifyAt f p c).map fun c2 => ETree.node t.value (t.children.dropLast ++ [c2]) := by
  cases t; rfl

theorem modifyAt_cons_first_nil {t : ETree α} (hcs : t.children = [])
    (f : ETree α → Option (ETree α)) (p : List Dir) :
    modifyAt f (.first :: p) t = none := by
  rw [modifyAt_cons_first_match, hcs]

theorem modifyAt_cons_first_eq {t c : ETree α} {rest : List (ETree α)}
    (hcs : t.children = c :: rest) (f : ETree α → Option (ETree α)) (p : List Dir) :
    modifyAt f (.first :: p) t =
      (modifyAt f p c).map fun c2 => ETree.node t.value (c2 :: rest) := by
  rw [modifyAt_cons_first_match, hcs]

theorem modifyAt_cons_last_nil {t : ETree α} (hcs : t.children.getLast? = none)
    (f : ETree α → Option (ETree α)) (p : List Dir) :
    modifyAt f (.last :: p) t = none := by
  rw [modifyAt_cons_last_match, hcs]

theorem modifyAt_cons_last_eq {t c : ETree α} (hcs : t.children.getLast? = some c)
    (f : ETree α → Option (ETree α)) (p : List Dir) :
    modifyAt f (.last :: p) t =
      (modifyAt f p c).map fun c2 => ETree.node t.value (t.children.dropLast ++ [c2]) := by
  rw [modifyAt_cons_last_match, hcs]

theorem resolve_cons_first_eq {t c : ETree α} (hcs : t.children.head? = some c)
    (p : List Dir) : resolve (.first :: p) t = resolve p c := by
  rw [resolve_cons_first, hcs]

theorem resolve_cons_last_eq {t c : ETree α} (hcs : t.children.getLast? = some c)
    (p : List Dir) : resolve (.last :: p) t = resolve p c := by
  rw [resolve_cons_last, hcs]

theorem modifyAt_some {f : ETree α → Option (ETree α)} {p : List Dir} {t t' : ETree α}
    (h : modifyAt f p t = some t') :
    ∃ sub sub', resolve p t = some sub ∧ f sub = some sub' ∧ resolve p t' = some sub' := by
  induction p generalizing t t' with
  | nil => exact ⟨t, t', rfl, h, rfl⟩
  | cons d p ih =>
    cases d with
    | first =>
      cases hcs : t.children with
      | nil => rw [modifyAt_cons_first_nil hcs] at h; cases h
      | cons c rest =>
        rw [modifyAt_cons_first_eq hcs] at h
        obtain ⟨c2, hm, ht'⟩ := Option.map_eq_some'.mp h
        subst ht'
        obtain ⟨sub, sub', h1, h2, h3⟩ := ih hm
        refine ⟨sub, sub', ?_, h2, ?_⟩
        · rw [resolve_cons_first_eq (by rw [hcs]; rfl)]; exact h1
        · rw [resolve_cons_first_eq (c := c2) (by rfl)]; exact h3
    | last =>
      cases hcs : t.children.getLast? with
      | none => rw [modifyAt_cons_last_nil hcs] at h; cases h
      | some c =>
        rw [modifyAt_cons_last_eq hcs] at h
        obtain ⟨c2, hm, ht'⟩ := Option.map_eq_some'.mp h
        subst ht'
        obtain ⟨sub, sub', h1, h2, h3⟩ := ih hm
        refine ⟨sub, sub', ?_, h2, ?_⟩
        · rw [resolve_cons_last_eq hcs]; exact h1
        · rw [resolve_cons_last_eq (c := c2)
            (by simp only [ETree.children_node, List.getLast?_concat])]
          exact h3

theorem modifyAt_isSome {f : ETree α → Option (ETree α)} {p : List Dir} {t sub : ETree α}
    (hres : resolve p t = some sub) (hf : (f sub).isSome) : (modifyAt f p t).isSome := by
  induction p generalizing t with
  | nil => cases hres; exact hf
  | cons d p ih =>
    cases d with
    | first =>
      cases hcs : t.children with
      | nil =>
        rw [resolve_cons_first, hcs] at hres
        cases hres
      | cons c rest =>
        have hh : t.children.head? = some c := by rw [hcs]; rfl
        rw [resolve_cons_first_eq hh] at hres
        rw [modifyAt_cons_first_eq hcs]
        have := ih hres
        cases hm : modifyAt f p c with
        | none => rw [hm] at this; cases this
        | some c2 => simp
    | last =>
      cases hcs : t.children.getLast? with
      | none =>
        rw [resolve_cons_last, hcs] at hres
        cases hres
      | some c =>
        rw [resolve_cons_last_eq hcs] at hres
        rw [modifyAt_cons_last_eq hcs]
        have := ih hres
        cases hm : modifyAt f p c with
        | none => rw [hm] at this; cases this
        | some c2 => simp

theorem modifyAt_strongInv {f : ETree (Option α) → Option (ETree (Option α))} {p : List Dir}
    {t t' : ETree (Option α)}
    (hf : ∀ s s', StrongInv s → f s = some s' → StrongInv s')
    (hinv : StrongInv t) (h : modifyAt f p t = some t') : StrongInv t' := by
  induction p generalizing t t' with
  | nil => exact hf t t' hinv h
  | cons d p ih =>
    cases d with
    | first =>
      cases hcs : t.children with
      | nil => rw [modifyAt_cons_first_nil hcs] at h; cases h
      | cons c rest =>
        rw [modifyAt_cons_first_eq hcs] at h
        obtain ⟨c2, hm, ht'⟩ := Option.map_eq_some'.mp h
        subst ht'
        have hc2 : StrongInv c2 :=
          ih (hinv.child (by rw [hcs]; exact List.mem_cons_self c rest)) hm
        obtain ⟨v, cs⟩ := t
        simp only [ETree.children_node] at hcs
        subst hcs
        cases hinv with
        | mk _ _ hpop hph hch =>
          refine .mk v (c2 :: rest) (fun hv => by simpa using hpop hv)
            (fun hv => by cases hph hv) ?_
          intro x hx
          rcases List.mem_cons.mp hx with rfl | hx
          · exact hc2
          · exact hch x (List.mem_cons_of_mem c hx)
    | last =>
      cases hcs : t.children.getLast? with
      | none => rw [modifyAt_cons_last_nil hcs] at h; cases h
      | some c =>
        rw [modifyAt_cons_last_eq hcs] at h
        obtain ⟨c2, hm, ht'⟩ := Option.map_eq_some'.mp h
        subst ht'
        have hc2 : StrongInv c2 := ih (hinv.child (List.mem_of_mem_getLast? hcs)) hm
        obtain ⟨v, cs⟩ := t
        simp only [ETree.children_node] at hcs
        have hne : cs ≠ [] := by rintro rfl; cases hcs
        cases hinv with
        | mk _ _ hpop hph hch =>
          refine .mk v (cs.dropLast ++ [c2]) ?_ (fun hv => by cases hne (hph hv)) ?_
          · intro hv
            have h2 := hpop hv
            simp only [List.length_append, List.length_dropLast, h2, List.length_singleton]
          · intro x hx
            rcases List.mem_append.mp hx with hx | hx
            · exact hch x (List.dropLast_subset cs hx)
            · rcases List.mem_singleton.mp hx with rfl
              exact hc2

theorem modifyAt_rootValue {f : ETree α → Option (ETree α)} {p : List Dir} {t t' : ETree α}
    (hf : ∀ s s', f s = some s' → s'.value = s.value)
    (h : modifyAt f p t = some t') : t'.value = t.value := by
  cases p with
  | nil => exact hf t t' h
  | cons d p =>
    cases d with
    | first =>
      cases hcs : t.children with
      | nil => rw [modifyAt_cons_first_nil hcs] at h; cases h
      | cons c rest =>
        rw [modifyAt_cons_first_eq hcs] at h
        obtain ⟨c2, hm, ht'⟩ := Option.map_eq_some'.mp h
        subst ht'
        rfl
    | last =>
      cases hcs : t.children.getLast? with
      | none => rw [modifyAt_cons_last_nil hcs] at h; cases h
      | some c =>
        rw [modifyAt_cons_last_eq hcs] at h
        obtain ⟨c2, hm, ht'⟩ := Option.map_eq_some'.mp h
        subst ht'
        rfl

/-! ### Lemmas about positions, `valueAt` and `Seg` -/

@[simp] theorem valueAt_nil (t : ETree (Option α)) : valueAt [] t = t.value := rfl

theorem childS_L (t : ETree α) : childS .L t = t.children.get? 0 := rfl

theorem childS_R (t : ETree α) : childS .R t = t.children.get? 1 := rfl

theorem sideResolve_cons_match (s : Side) (q : List Side) (t : ETree (Option α)) :
    sideResolve (s :: q) t =
      match childS s t with
      | none => none
      | some c => sideResolve q c := by
  cases hc : childS s t with
  | none => simp only [sideResolve, hc]
  | some c => simp only [sideResolve, hc]

theorem valueAt_cons_none {s : Side} {t : ETree (Option α)} (h : childS s t = none)
    (q : List Side) : valueAt (s :: q) t = none := by
  unfold valueAt
  rw [sideResolve_cons_match, h]
  rfl

theorem valueAt_cons_some {s : Side} {t c : ETree (Option α)} (h : childS s t = some c)
    (q : List Side) : valueAt (s :: q) t = valueAt q c := by
  unfold valueAt
  rw [sideResolve_cons_match, h]

@[simp] theorem Seg_nil_left (q : List Side) : Seg [] q := trivial

theorem not_Seg_cons_nil (a : Side) (p : List Side) : ¬ Seg (a :: p) [] := fun h => h

theorem Seg_cons_cons {a b : Side} {p q : List Side} :
    Seg (a :: p) (b :: q) ↔ a = b ∧ Seg p q := Iff.rfl

@[simp] theorem sidesOf_nil : sidesOf [] = [] := rfl

@[simp] theorem sidesOf_cons (d : Dir) (p : List Dir) :
    sidesOf (d :: p) = dirSide d :: sidesOf p := rfl

/-! ### Lemmas about `populate`, `set_left`, `set_right`, `write_value` -/

namespace BinaryNodeMut

@[simp] theorem populate_value (v : α) (c : ETree (Option α)) :
    (populate v c).value = some v := by
  cases c; rfl

theorem populate_of_nil {c : ETree (Option α)} (h : c.children = []) (v : α) :
    populate v c = ETree.node (some v) [placeholder α, placeholder α] := by
  cases c
  simp only [ETree.children_node] at h
  subst h
  rfl

theorem populate_of_ne_nil {c : ETree (Option α)} (h : c.children ≠ []) (v : α) :
    populate v c = ETree.node (some v) c.children := by
  cases c
  simp only [ETree.children_node] at h ⊢
  rw [populate, if_neg (by simpa [List.isEmpty_iff] using h)]

end BinaryNodeMut

theorem strongInv_fresh (v : α) :
    StrongInv (ETree.node (some v) [placeholder α, placeholder α]) := by
  refine .mk (some v) [placeholder α, placeholder α] (fun _ => rfl) (by simp) ?_
  intro c hc
  simp only [List.mem_cons, List.mem_singleton, List.not_mem_nil, or_false] at hc
  rcases hc with rfl | rfl <;> exact strongInv_placeholder

theorem strongInv_populate {c : ETree (Option α)} (h : StrongInv c) (v : α) :
    StrongInv (BinaryNodeMut.populate v c) := by
  cases hcs : c.children with
  | nil => rw [BinaryNodeMut.populate_of_nil hcs]; exact strongInv_fresh v
  | cons a rest =>
    rw [BinaryNodeMut.populate_of_ne_nil (by rw [hcs]; exact List.cons_ne_nil a rest)]
    have hpop : c.value.isSome := h.pop_of_ne_nil (by rw [hcs]; exact List.cons_ne_nil a rest)
    obtain ⟨l, r, hlr⟩ := h.pair hpop
    refine .mk (some v) c.children (fun _ => by rw [hlr]; rfl) (by simp) ?_
    intro x hx
    exact h.child hx

namespace BinaryNodeMut

theorem set_left_pair (v : α) (w : Option α) (l r : ETree (Option α)) :
    set_left v (ETree.node w [l, r]) = some (ETree.node w [populate v l, r]) := rfl

theorem set_right_pair (v : α) (w : Option α) (l r : ETree (Option α)) :
    set_right v (ETree.node w [l, r]) = some (ETree.node w [l, populate v r]) := by
  simp [set_right, List.getLast?, List.getLast]

theorem set_left_spec {s : ETree (Option α)} (hinv : StrongInv s) (hpop : s.value.isSome)
    (v : α) :
    ∃ l r, s.children = [l, r] ∧
      set_left v s = some (ETree.node s.value [populate v l, r]) ∧
      set_right v s = some (ETree.node s.value [l, populate v r]) := by
  obtain ⟨l, r, hlr⟩ := hinv.pair hpop
  cases s with
  | node w cs =>
    simp only [ETree.children_node] at hlr
    subst hlr
    exact ⟨l, r, rfl, rfl, set_right_pair v w l r⟩

theorem set_left_strongInv (v : α) :
    ∀ s s' : ETree (Option α), StrongInv s → set_left v s = some s' → StrongInv s' := by
  intro s s' hinv h
  cases s with
  | node w cs =>
    cases cs with
    | nil => cases h
    | cons l rest =>
      cases h
      cases hinv with
      | mk _ _ hpop hph hch =>
        refine .mk w (populate v l :: rest) (fun hv => by simpa using hpop hv)
          (fun hv => by cases hph hv) ?_
        intro x hx
        rcases List.mem_cons.mp hx with rfl | hx
        · exact strongInv_populate (hch l (List.mem_cons_self l rest)) v
        · exact hch x (List.mem_cons_of_mem l hx)

theorem set_right_strongInv (v : α) :
    ∀ s s' : ETree (Option α), StrongInv s → set_right v s = some s' → StrongInv s' := by
  intro s s' hinv h
  have hne : s.children ≠ [] := by
    intro hnil
    cases s with
    | node w cs =>
      simp only [ETree.children_node] at hnil
      subst hnil
      cases h
  have hpop : s.value.isSome := hinv.pop_of_ne_nil hne
  obtain ⟨l, r, hlr, _, hr⟩ := set_left_spec hinv hpop v
  rw [hr] at h
  cases h
  refine .mk s.value [l, populate v r] (fun _ => rfl) ?_ ?_
  · intro hv
    rw [hv] at hpop
    cases hpop
  · intro x hx
    simp only [List.mem_cons, List.mem_singleton, List.not_mem_nil, or_false] at hx
    rcases hx with hx | hx
    · rw [hx]; exact hinv.child (by rw [hlr]; exact List.mem_cons_self l [r])
    · rw [hx]; exact strongInv_populate (hinv.child (by rw [hlr]; simp)) v

theorem set_left_rootValue (v : α) :
    ∀ s s' : ETree (Option α), set_left v s = some s' → s'.value = s.value := by
  intro s s' h
  cases s with
  | node w cs =>
    cases cs with
    | nil => cases h
    | cons l rest => cases h; rfl

theorem set_right_match (v : α) (w : Option α) (cs : List (ETree (Option α))) :
    set_right v (ETree.node w cs) =
      match cs.getLast? with
      | none => none
      | some r => some (ETree.node w (cs.dropLast ++ [populate v r])) := rfl

theorem set_right_rootValue (v : α) :
    ∀ s s' : ETree (Option α), set_right v s = some s' → s'.value = s.value := by
  intro s s' h
  cases s with
  | node w cs =>
    rw [set_right_match] at h
    cases hg : cs.getLast? with
    | none => rw [hg] at h; cases h
    | some r => rw [hg] at h; cases h; rfl

theorem write_value_strongInv (v : α) :
    ∀ s s' : ETree (Option α), StrongInv s → write_value v s = some s' → StrongInv s' := by
  intro s s' hinv h
  cases s with
  | node w cs =>
    cases w with
    | none => cases h
    | some w0 =>
      cases h
      cases hinv with
      | mk _ _ hpop hph hch => exact .mk (some v) cs (fun _ => hpop rfl) (by simp) hch

theorem write_value_rootPop (v : α) :
    ∀ s s' : ETree (Option α), write_value v s = some s' → s'.value.isSome := by
  intro s s' h
  cases s with
  | node w cs =>
    cases w with
    | none => cases h
    | some w0 => cases h; rfl

end BinaryNodeMut

/-! ### Inside and frame lemmas for `modifyAt` -/

@[simp] theorem dirSide_first : dirSide .first = .L := rfl

@[simp] theorem dirSide_last : dirSide .last = .R := rfl

theorem StrongInv.last_pair {t : ETree (Option α)} (hinv : StrongInv t)
    {c : ETree (Option α)} (hg : t.children.getLast? = some c) :
    ∃ l, t.children = [l, c] := by
  have hne : t.children ≠ [] := by intro hnil; rw [hnil] at hg; cases hg
  obtain ⟨l, r, hlr⟩ := hinv.pair (hinv.pop_of_ne_nil hne)
  rw [hlr] at hg
  have hrc : r = c := by simpa [List.getLast?] using hg
  exact ⟨l, by rw [hlr, hrc]⟩

theorem modifyAt_cons_rootValue {f : ETree α → Option (ETree α)} {d : Dir} {p : List Dir}
    {t t' : ETree α} (h : modifyAt f (d :: p) t = some t') : t'.value = t.value := by
  cases d with
  | first =>
    cases hcs : t.children with
    | nil => rw [modifyAt_cons_first_nil hcs] at h; cases h
    | cons c rest =>
      rw [modifyAt_cons_first_eq hcs] at h
      obtain ⟨c2, hm, ht'⟩ := Option.map_eq_some'.mp h
      subst ht'
      rfl
  | last =>
    cases hcs : t.children.getLast? with
    | none => rw [modifyAt_cons_last_nil hcs] at h; cases h
    | some c =>
      rw [modifyAt_cons_last_eq hcs] at h
      obtain ⟨c2, hm, ht'⟩ := Option.map_eq_some'.mp h
      subst ht'
      rfl

theorem modifyAt_rootPop {f : ETree (Option α) → Option (ETree (Option α))} {p : List Dir}
    {t t' : ETree (Option α)}
    (hf : ∀ s s', f s = some s' → s.value.isSome → s'.value.isSome)
    (h : modifyAt f p t = some t') (hpop : t.value.isSome) : t'.value.isSome := by
  cases p with
  | nil => exact hf t t' h hpop
  | cons d p => rw [modifyAt_cons_rootValue h]; exact hpop

theorem resolve_singleton_children_ne_nil {sub sub2 : ETree α} {d : Dir}
    (h : resolve [d] sub = some sub2) : sub.children ≠ [] := by
  intro hnil
  cases d with
  | first =>
    rw [resolve_cons_first] at h
    rw [hnil] at h
    cases h
  | last =>
    rw [resolve_cons_last] at h
    rw [hnil] at h
    cases h

theorem modifyAt_inside {f : ETree (Option α) → Option (ETree (Option α))} {p : List Dir}
    {t t' sub sub' : ETree (Option α)}
    (hinv : StrongInv t) (h : modifyAt f p t = some t')
    (hres : resolve p t = some sub) (hsub : f sub = some sub') (q : List Side) :
    valueAt (sidesOf p ++ q) t' = valueAt q sub' := by
  induction p generalizing t t' with
  | nil =>
    rw [modifyAt_nil] at h
    cases hres
    have : t' = sub' := by
      have := h.symm.trans hsub
      exact Option.some.inj this
    subst this
    rfl
  | cons d p ih =>
    cases d with
    | first =>
      cases hcs : t.children with
      | nil => rw [modifyAt_cons_first_nil hcs] at h; cases h
      | cons c rest =>
        rw [modifyAt_cons_first_eq hcs] at h
        obtain ⟨c2, hm, ht'⟩ := Option.map_eq_some'.mp h
        subst ht'
        rw [resolve_cons_first_eq (show t.children.head? = some c by rw [hcs]; rfl)] at hres
        have hcinv := hinv.child (by rw [hcs]; exact List.mem_cons_self c rest)
        have hrec := ih hcinv hm hres
        rw [sidesOf_cons, dirSide_first, List.cons_append,
          valueAt_cons_some
            (show childS .L (ETree.node t.value (c2 :: rest)) = some c2 from rfl)]
        exact hrec
    | last =>
      cases hg : t.children.getLast? with
      | none => rw [modifyAt_cons_last_nil hg] at h; cases h
      | some c =>
        rw [modifyAt_cons_last_eq hg] at h
        obtain ⟨c2, hm, ht'⟩ := Option.map_eq_some'.mp h
        subst ht'
        rw [resolve_cons_last_eq hg] at hres
        obtain ⟨l, hlc⟩ := hinv.last_pair hg
        have hcinv := hinv.child (List.mem_of_mem_getLast? hg)
        have hrec := ih hcinv hm hres
        rw [show t.children.dropLast ++ [c2] = [l, c2] by rw [hlc]; rfl]
        rw [sidesOf_cons, dirSide_last, List.cons_append,
          valueAt_cons_some
            (show childS .R (ETree.node t.value [l, c2]) = some c2 from rfl)]
        exact hrec

theorem modifyAt_frame {f : ETree (Option α) → Option (ETree (Option α))} {ds : List Side}
    (hfr : ∀ s s', StrongInv s → f s = some s' →
      ∀ q, ¬ Seg ds q → valueAt q s' = valueAt q s)
    {p : List Dir} {t t' : ETree (Option α)}
    (hinv : StrongInv t) (h : modifyAt f p t = some t') :
    ∀ q, ¬ Seg (sidesOf p ++ ds) q → valueAt q t' = valueAt q t := by
  induction p generalizing t t' with
  | nil =>
    rw [modifyAt_nil] at h
    intro q hq
    exact hfr t t' hinv h q (by simpa using hq)
  | cons d p ih =>
    cases d with
    | first =>
      cases hcs : t.children with
      | nil => rw [modifyAt_cons_first_nil hcs] at h; cases h
      | cons c rest =>
        rw [modifyAt_cons_first_eq hcs] at h
        obtain ⟨c2, hm, ht'⟩ := Option.map_eq_some'.mp h
        subst ht'
        have hcinv := hinv.child (by rw [hcs]; exact List.mem_cons_self c rest)
        intro q hq
        rw [sidesOf_cons, dirSide_first, List.cons_append] at hq
        cases q with
        | nil => rfl
        | cons s q' =>
          cases s with
          | L =>
            have hq' : ¬ Seg (sidesOf p ++ ds) q' :=
              fun hh => hq (Seg_cons_cons.mpr ⟨rfl, hh⟩)
            rw [valueAt_cons_some
                (show childS .L (ETree.node t.value (c2 :: rest)) = some c2 from rfl),
              valueAt_cons_some (show childS .L t = some c by rw [childS_L, hcs]; rfl)]
            exact ih hcinv hm q' hq'
          | R =>
            have hR : childS .R t = rest.get? 0 := by rw [childS_R, hcs]; rfl
            cases hr : rest.get? 0 with
            | none =>
              rw [valueAt_cons_none
                  (show childS .R (ETree.node t.value (c2 :: rest)) = none by
                    rw [childS_R]; exact hr),
                valueAt_cons_none (by rw [hR]; exact hr)]
            | some x =>
              rw [valueAt_cons_some
                  (show childS .R (ETree.node t.value (c2 :: rest)) = some x by
                    rw [childS_R]; exact hr),
                valueAt_cons_some (by rw [hR]; exact hr)]
    | last =>
      cases hg : t.children.getLast? with
      | none => rw [modifyAt_cons_last_nil hg] at h; cases h
      | some c =>
        rw [modifyAt_cons_last_eq hg] at h
        obtain ⟨c2, hm, ht'⟩ := Option.map_eq_some'.mp h
        subst ht'
        obtain ⟨l, hlc⟩ := hinv.last_pair hg
        have hcinv := hinv.child (List.mem_of_mem_getLast? hg)
        intro q hq
        rw [sidesOf_cons, dirSide_last, List.cons_append] at hq
        rw [show t.children.dropLast ++ [c2] = [l, c2] by rw [hlc]; rfl]
        cases q with
        | nil => rfl
        | cons s q' =>
          cases s with
          | L =>
            rw [valueAt_cons_some
                (show childS .L (ETree.node t.value [l, c2]) = some l from rfl),
              valueAt_cons_some (show childS .L t = some l by rw [childS_L, hlc]; rfl)]
          | R =>
            have hq' : ¬ Seg (sidesOf p ++ ds) q' :=
              fun hh => hq (Seg_cons_cons.mpr ⟨rfl, hh⟩)
            rw [valueAt_cons_some
                (show childS .R (ETree.node t.value [l, c2]) = some c2 from rfl),
              valueAt_cons_some (show childS .R t = some c by rw [childS_R, hlc]; rfl)]
            exact ih hcinv hm q' hq'

/-! ### Inversion lemmas for view navigation -/

namespace BinaryNodeMut

theorem left_present {s l : ETree (Option α)} (h : left s = .present l) :
    s.children.head? = some l ∧ l.value.isSome := by
  unfold left left_inner at h
  cases hh : s.children.head? with
  | none => simp only [hh] at h; cases h
  | some x =>
    simp only [hh] at h
    cases hv : x.value with
    | none => simp only [hv] at h; cases h
    | some w =>
      simp only [hv] at h
      cases h
      exact ⟨rfl, by rw [hv]; rfl⟩

theorem left_absent {s : ETree (Option α)} (h : left s = .absent) :
    ∃ l, s.children.head? = some l ∧ l.value = none := by
  unfold left left_inner at h
  cases hh : s.children.head? with
  | none => simp only [hh] at h; cases h
  | some x =>
    simp only [hh] at h
    cases hv : x.value with
    | none => exact ⟨x, rfl, hv⟩
    | some w => simp only [hv] at h; cases h

theorem right_present {s r : ETree (Option α)} (h : right s = .present r) :
    s.children.getLast? = some r ∧ r.value.isSome := by
  unfold right right_inner at h
  cases hh : s.children.getLast? with
  | none => simp only [hh] at h; cases h
  | some x =>
    simp only [hh] at h
    cases hv : x.value with
    | none => simp only [hv] at h; cases h
    | some w =>
      simp only [hv] at h
      cases h
      exact ⟨rfl, by rw [hv]; rfl⟩

theorem right_absent {s : ETree (Option α)} (h : right s = .absent) :
    ∃ r, s.children.getLast? = some r ∧ r.value = none := by
  unfold right right_inner at h
  cases hh : s.children.getLast? with
  | none => simp only [hh] at h; cases h
  | some x =>
    simp only [hh] at h
    cases hv : x.value with
    | none => exact ⟨x, rfl, hv⟩
    | some w => simp only [hv] at h; cases h

theorem left_of_head {s l : ETree (Option α)} (hh : s.children.head? = some l) :
    left s = match l.value with | none => .absent | some _ => .present l := by
  unfold left left_inner
  rw [hh]

theorem right_of_getLast {s r : ETree (Option α)} (hh : s.children.getLast? = some r) :
    right s = match r.value with | none => .absent | some _ => .present r := by
  unfold right right_inner
  rw [hh]

theorem set_left_frame (v : α) :
    ∀ s s' : ETree (Option α), StrongInv s → set_left v s = some s' →
      ∀ q, ¬ Seg [Side.L] q → valueAt q s' = valueAt q s := by
  intro s s' hinv h q hq
  cases s with
  | node w cs =>
    cases cs with
    | nil => cases h
    | cons l rest =>
      cases h
      cases q with
      | nil => rfl
      | cons a q' =>
        cases a with
        | L => exact absurd (Seg_cons_cons.mpr ⟨rfl, Seg_nil_left q'⟩) hq
        | R =>
          cases hr : rest.get? 0 with
          | none =>
            rw [valueAt_cons_none (show childS .R _ = none by rw [childS_R]; exact hr),
              valueAt_cons_none (show childS .R _ = none by rw [childS_R]; exact hr)]
          | some x =>
            rw [valueAt_cons_some (show childS .R _ = some x by rw [childS_R]; exact hr),
              valueAt_cons_some (show childS .R _ = some x by rw [childS_R]; exact hr)]

theorem set_right_frame (v : α) :
    ∀ s s' : ETree (Option α), StrongInv s → set_right v s = some s' →
      ∀ q, ¬ Seg [Side.R] q → valueAt q s' = valueAt q s := by
  intro s s' hinv h q hq
  have hne : s.children ≠ [] := by
    intro hnil
    cases s with
    | node w cs =>
      simp only [ETree.children_node] at hnil
      subst hnil
      cases h
  have hpop : s.value.isSome := hinv.pop_of_ne_nil hne
  obtain ⟨l, r, hlr, _, hr⟩ := set_left_spec hinv hpop v
  rw [hr] at h
  cases h
  cases q with
  | nil => rfl
  | cons a q' =>
    cases a with
    | R => exact absurd (Seg_cons_cons.mpr ⟨rfl, Seg_nil_left q'⟩) hq
    | L =>
      rw [valueAt_cons_some
          (show childS .L (ETree.node s.value [l, populate v r]) = some l from rfl),
        valueAt_cons_some (show childS .L s = some l by rw [childS_L, hlr]; rfl)]

end BinaryNodeMut

/-! ### The reachability invariant -/

theorem rc_inv {t : ETree (Option α)} {p : List Dir} (h : RC t p) :
    (StrongInv t ∧ t.value.isSome) ∧
      ∃ sub, resolve p t = some sub ∧ sub.value.isSome := by
  induction h with
  | new v => exact ⟨⟨strongInv_new v, rfl⟩, ⟨BinaryTree.new v, rfl, rfl⟩⟩
  | reroot h ih => exact ⟨ih.1, ⟨_, rfl, ih.1.2⟩⟩
  | @pop t p d h ih =>
    obtain ⟨⟨hinv, hroot⟩, sub2, hres2, hpop2⟩ := ih
    rw [resolve_append] at hres2
    cases hsub : resolve p t with
    | none => rw [hsub] at hres2; cases hres2
    | some sub =>
      rw [hsub] at hres2
      simp only [Option.some_bind] at hres2
      refine ⟨⟨hinv, hroot⟩, sub, rfl, ?_⟩
      have hsinv := resolve_strongInv hinv hsub
      exact hsinv.pop_of_ne_nil (resolve_singleton_children_ne_nil hres2)
  | goLeft h hres hl ih =>
    obtain ⟨⟨hinv, hroot⟩, _, _, _⟩ := ih
    obtain ⟨hh, hlpop⟩ := BinaryNodeMut.left_present hl
    refine ⟨⟨hinv, hroot⟩, _, ?_, hlpop⟩
    rw [resolve_append, hres]
    simp only [Option.some_bind]
    rw [resolve_cons_first_eq hh]
    rfl
  | goRight h hres hr ih =>
    obtain ⟨⟨hinv, hroot⟩, _, _, _⟩ := ih
    obtain ⟨hh, hrpop⟩ := BinaryNodeMut.right_present hr
    refine ⟨⟨hinv, hroot⟩, _, ?_, hrpop⟩
    rw [resolve_append, hres]
    simp only [Option.some_bind]
    rw [resolve_cons_last_eq hh]
    rfl
  | setL v h hset ih =>
    obtain ⟨⟨hinv, hroot⟩, sub, hres, hpop⟩ := ih
    have hinv' := modifyAt_strongInv (BinaryNodeMut.set_left_strongInv v) hinv hset
    have hval' := modifyAt_rootValue (BinaryNodeMut.set_left_rootValue v) hset
    obtain ⟨sub1, sub1', hres1, hf1, hres1'⟩ := modifyAt_some hset
    rw [hres] at hres1
    obtain rfl := Option.some.inj hres1
    obtain ⟨l, r, hlr, hsl, _⟩ :=
      BinaryNodeMut.set_left_spec (resolve_strongInv hinv hres) hpop v
    rw [hsl] at hf1
    obtain rfl := Option.some.inj hf1
    refine ⟨⟨hinv', by rw [hval']; exact hroot⟩, BinaryNodeMut.populate v l, ?_, by simp⟩
    rw [resolve_append, hres1']
    simp only [Option.some_bind]
    rw [resolve_cons_first_eq
      (show (ETree.node sub.value [BinaryNodeMut.populate v l, r]).children.head? =
        some (BinaryNodeMut.populate v l) from rfl)]
    rfl
  | setR v h hset ih =>
    obtain ⟨⟨hinv, hroot⟩, sub, hres, hpop⟩ := ih
    have hinv' := modifyAt_strongInv (BinaryNodeMut.set_right_strongInv v) hinv hset
    have hval' := modifyAt_rootValue (BinaryNodeMut.set_right_rootValue v) hset
    obtain ⟨sub1, sub1', hres1, hf1, hres1'⟩ := modifyAt_some hset
    rw [hres] at hres1
    obtain rfl := Option.some.inj hres1
    obtain ⟨l, r, hlr, _, hsr⟩ :=
      BinaryNodeMut.set_left_spec (resolve_strongInv hinv hres) hpop v
    rw [hsr] at hf1
    obtain rfl := Option.some.inj hf1
    refine ⟨⟨hinv', by rw [hval']; exact hroot⟩, BinaryNodeMut.populate v r, ?_, by simp⟩
    rw [resolve_append, hres1']
    simp only [Option.some_bind]
    rw [resolve_cons_last_eq
      (show (ETree.node sub.value [l, BinaryNodeMut.populate v r]).children.getLast? =
        some (BinaryNodeMut.populate v r) by simp [List.getLast?])]
    rfl
  | writeVal v h hw ih =>
    obtain ⟨⟨hinv, hroot⟩, sub, hres, hpop⟩ := ih
    have hinv' := modifyAt_strongInv (BinaryNodeMut.write_value_strongInv v) hinv hw
    have hpop' := modifyAt_rootPop
      (fun s s' hss _ => BinaryNodeMut.write_value_rootPop v s s' hss) hw hroot
    obtain ⟨sub1, sub1', hres1, hf1, hres1'⟩ := modifyAt_some hw
    exact ⟨⟨hinv', hpop'⟩, sub1', hres1',
      BinaryNodeMut.write_value_rootPop v sub1 sub1' hf1⟩

/-! ### Shared-view inversion lemmas and the shared-view invariant -/

namespace BinaryNodeRef

theorem ref_left_present {s c : ETree (Option α)} (h : left s = .present c) :
    s.children.get? 0 = some c ∧ c.value.isSome := by
  unfold left at h
  cases hh : s.children.head? with
  | none => simp only [hh] at h; cases h
  | some x =>
    simp only [hh] at h
    cases hv : x.value with
    | none => simp only [hv] at h; cases h
    | some w =>
      simp only [hv] at h
      cases h
      exact ⟨by rw [List.get?_zero]; exact hh, by rw [hv]; rfl⟩

theorem ref_left_absent {s : ETree (Option α)} (h : left s = .absent) :
    ∃ c, s.children.get? 0 = some c ∧ c.value = none := by
  unfold left at h
  cases hh : s.children.head? with
  | none => simp only [hh] at h; cases h
  | some x =>
    simp only [hh] at h
    cases hv : x.value with
    | none => exact ⟨x, by rw [List.get?_zero]; exact hh, hv⟩
    | some w => simp only [hv] at h; cases h

theorem ref_right_present {s c : ETree (Option α)} (h : right s = .present c) :
    s.children.get? 1 = some c ∧ c.value.isSome := by
  unfold right at h
  cases hcs : s.children with
  | nil => simp only [hcs] at h; cases h
  | cons a cs1 =>
    cases cs1 with
    | nil => simp only [hcs] at h; cases h
    | cons b rest =>
      simp only [hcs] at h
      cases hv : b.value with
      | none => simp only [hv] at h; cases h
      | some w =>
        simp only [hv] at h
        cases h
        exact ⟨rfl, by rw [hv]; rfl⟩

theorem ref_right_absent {s : ETree (Option α)} (h : right s = .absent) :
    ∃ c, s.children.get? 1 = some c ∧ c.value = none := by
  unfold right at h
  cases hcs : s.children with
  | nil => simp only [hcs] at h; cases h
  | cons a cs1 =>
    cases cs1 with
    | nil => simp only [hcs] at h; cases h
    | cons b rest =>
      simp only [hcs] at h
      cases hv : b.value with
      | none => exact ⟨b, rfl, hv⟩
      | some w => simp only [hv] at h; cases h

theorem ref_left_of_head {s l : ETree (Option α)} (hh : s.children.head? = some l) :
    left s = match l.value with | none => VRes.absent | some _ => VRes.present l := by
  unfold left
  rw [hh]

theorem right_of_pair {s a b : ETree (Option α)} {rest : List (ETree (Option α))}
    (hcs : s.children = a :: b :: rest) :
    right s = match b.value with | none => VRes.absent | some _ => VRes.present b := by
  unfold right
  simp only [hcs]

end BinaryNodeRef

theorem sharedView_inv {t s : ETree (Option α)} (hinv : StrongInv t) (hpop : t.value.isSome)
    (h : SharedView t s) : StrongInv s ∧ s.value.isSome := by
  induction h with
  | root => exact ⟨hinv, hpop⟩
  | stepL hsv hl ih =>
    obtain ⟨hsinv, hspop⟩ := ih
    obtain ⟨hh, hcpop⟩ := BinaryNodeRef.ref_left_present hl
    exact ⟨hsinv.child (List.get?_mem hh), hcpop⟩
  | stepR hsv hr ih =>
    obtain ⟨hsinv, hspop⟩ := ih
    obtain ⟨hh, hcpop⟩ := BinaryNodeRef.ref_right_present hr
    exact ⟨hsinv.child (List.get?_mem hh), hcpop⟩

theorem strongInv_twoOrZero {t : ETree (Option α)} (h : StrongInv t) : TwoOrZero t := by
  induction h with
  | mk v cs hpop hph hch ih =>
    refine .mk v cs hpop ?_ ih
    cases hv : v with
    | none => rw [hph hv]; simp
    | some w => rw [hpop (by rw [hv]; rfl)]; simp

/-! ### Replacement representation of `modifyAt` -/

theorem valueAt_placeholder (q : List Side) : valueAt q (placeholder α) = none := by
  cases q with
  | nil => rfl
  | cons s q' =>
    refine valueAt_cons_none ?_ q'
    cases s <;> rfl

theorem modifyAt_self {p : List Dir} {t sub : ETree α} (hres : resolve p t = some sub) :
    modifyAt (fun _ => some sub) p t = some t := by
  induction p generalizing t with
  | nil => cases hres; rfl
  | cons d p ih =>
    obtain ⟨v, cs⟩ := t
    cases d with
    | first =>
      cases cs with
      | nil =>
        rw [resolve_cons_first] at hres
        cases hres
      | cons c rest =>
        rw [resolve_cons_first_eq
          (show (ETree.node v (c :: rest)).children.head? = some c from rfl)] at hres
        rw [modifyAt_cons_first_eq
          (show (ETree.node v (c :: rest)).children = c :: rest from rfl), ih hres]
        rfl
    | last =>
      cases hg : cs.getLast? with
      | none =>
        rw [resolve_cons_last] at hres
        simp only [ETree.children_node, hg] at hres
        cases hres
      | some c =>
        have hg' : (ETree.node v cs).children.getLast? = some c := by
          simpa using hg
        rw [resolve_cons_last_eq hg'] at hres
        rw [modifyAt_cons_last_eq hg', ih hres]
        simp only [Option.map_some', ETree.value_node, ETree.children_node]
        rw [List.dropLast_append_getLast? c hg]

theorem modifyAt_as_replace {f : ETree α → Option (ETree α)} {p : List Dir} {t sub : ETree α}
    (hres : resolve p t = some sub) :
    modifyAt f p t = (f sub).bind fun s' => modifyAt (fun _ => some s') p t := by
  induction p generalizing t with
  | nil =>
    cases hres
    show f sub = (f sub).bind fun s' => some s'
    cases f sub <;> rfl
  | cons d p ih =>
    cases d with
    | first =>
      cases hcs : t.children with
      | nil =>
        rw [resolve_cons_first, hcs] at hres
        cases hres
      | cons c rest =>
        rw [resolve_cons_first_eq (show t.children.head? = some c by rw [hcs]; rfl)] at hres
        rw [modifyAt_cons_first_eq hcs, ih hres]
        cases f sub with
        | none => rfl
        | some s' =>
          simp only [Option.some_bind]
          rw [modifyAt_cons_first_eq hcs]
    | last =>
      cases hg : t.children.getLast? with
      | none =>
        rw [resolve_cons_last, hg] at hres
        cases hres
      | some c =>
        rw [resolve_cons_last_eq hg] at hres
        rw [modifyAt_cons_last_eq hg, ih hres]
        cases f sub with
        | none => rfl
        | some s' =>
          simp only [Option.some_bind]
          rw [modifyAt_cons_last_eq hg]

theorem replace_twice {p : List Dir} {t t1 s1 : ETree α} (s2 : ETree α)
    (h1 : modifyAt (fun _ => some s1) p t = some t1) :
    modifyAt (fun _ => some s2) p t1 = modifyAt (fun _ => some s2) p t := by
  induction p generalizing t t1 with
  | nil => rfl
  | cons d p ih =>
    obtain ⟨v, cs⟩ := t
    cases d with
    | first =>
      cases cs with
      | nil =>
        rw [modifyAt_cons_first_nil (show (ETree.node v ([] : List (ETree α))).children = []
          from rfl)] at h1
        cases h1
      | cons c rest =>
        rw [modifyAt_cons_first_eq
          (show (ETree.node v (c :: rest)).children = c :: rest from rfl)] at h1
        obtain ⟨c2, hm, ht1⟩ := Option.map_eq_some'.mp h1
        subst ht1
        rw [modifyAt_cons_first_eq
            (show (ETree.node v (c :: rest)).children = c :: rest from rfl),
          modifyAt_cons_first_eq
            (show (ETree.node (ETree.node v (c :: rest)).value (c2 :: rest)).children =
              c2 :: rest from rfl),
          ih hm]
        simp only [ETree.value_node]
    | last =>
      cases hg : cs.getLast? with
      | none =>
        rw [modifyAt_cons_last_nil (by simpa using hg)] at h1
        cases h1
      | some c =>
        have hg' : (ETree.node v cs).children.getLast? = some c := by simpa using hg
        rw [modifyAt_cons_last_eq hg'] at h1
        obtain ⟨c2, hm, ht1⟩ := Option.map_eq_some'.mp h1
        subst ht1
        rw [modifyAt_cons_last_eq hg',
          modifyAt_cons_last_eq
            (show (ETree.node (ETree.node v cs).value
                ((ETree.node v cs).children.dropLast ++ [c2])).children.getLast? =
              some c2 by simp only [ETree.children_node, List.getLast?_concat]),
          ih hm]
        simp only [ETree.children_node, ETree.value_node, List.dropLast_concat]

theorem modifyAt_append (f : ETree α → Option (ETree α)) (p p' : List Dir) (t : ETree α) :
    modifyAt f (p ++ p') t = modifyAt (modifyAt f p') p t := by
  induction p generalizing t with
  | nil => rfl
  | cons d p ih =>
    cases d with
    | first =>
      cases hcs : t.children with
      | nil => rw [List.cons_append, modifyAt_cons_first_nil hcs, modifyAt_cons_first_nil hcs]
      | cons c rest =>
        rw [List.cons_append, modifyAt_cons_first_eq hcs, modifyAt_cons_first_eq hcs, ih]
    | last =>
      cases hg : t.children.getLast? with
      | none => rw [List.cons_append, modifyAt_cons_last_nil hg, modifyAt_cons_last_nil hg]
      | some c =>
        rw [List.cons_append, modifyAt_cons_last_eq hg, modifyAt_cons_last_eq hg, ih]

theorem replace_then_modify {g : ETree α → Option (ETree α)} {p : List Dir} {t t1 a : ETree α}
    (h1 : modifyAt (fun _ => some a) p t = some t1) :
    modifyAt g p t1 = (g a).bind fun b => modifyAt (fun _ => some b) p t := by
  obtain ⟨sub0, s0, _, hs0, hres1⟩ := modifyAt_some h1
  obtain rfl := Option.some.inj hs0
  rw [modifyAt_as_replace hres1]
  cases g a with
  | none => rfl
  | some b =>
    simp only [Option.some_bind]
    exact replace_twice b h1

/-! ### Layout computation lemmas -/

theorem valueAt_node_nil (w : Option α) (cs : List (ETree (Option α))) :
    valueAt [] (ETree.node w cs) = w := rfl

theorem valueAt_node_L (w : Option α) (l r : ETree (Option α)) (q : List Side) :
    valueAt (.L :: q) (ETree.node w [l, r]) = valueAt q l :=
  valueAt_cons_some (show childS .L (ETree.node w [l, r]) = some l from rfl) q

theorem valueAt_node_R (w : Option α) (l r : ETree (Option α)) (q : List Side) :
    valueAt (.R :: q) (ETree.node w [l, r]) = valueAt q r :=
  valueAt_cons_some (show childS .R (ETree.node w [l, r]) = some r from rfl) q

theorem specLayout_nil (r : α) (ch : CSpec α) : specLayout r ch [] = some r := by
  cases ch <;> rfl

/-- Building a nested specification at a freshly populated slot succeeds, keeps
the storage invariant, amounts to replacing the slot's subtree, and realises
exactly the layout described by the specification. -/
theorem applySpec_ok {α : Type u} (ch : CSpec α) :
    ∀ (p : List Dir) (t : ETree (Option α)) (w : α),
      StrongInv t →
      resolve p t = some (ETree.node (some w) [placeholder α, placeholder α]) →
      ∃ t' sub', applySpec ch p t = some t' ∧ StrongInv t' ∧
        modifyAt (fun _ => some sub') p t = some t' ∧
        ∀ q, valueAt q sub' = specLayout w ch q := by
  induction ch with
  | empty =>
    intro p t w hinv hres
    refine ⟨t, ETree.node (some w) [placeholder α, placeholder α], rfl, hinv,
      modifyAt_self hres, ?_⟩
    intro q
    cases q with
    | nil => rfl
    | cons s q' =>
      cases s with
      | L => rw [valueAt_node_L, valueAt_placeholder]; rfl
      | R => rw [valueAt_node_R, valueAt_placeholder]; rfl
  | leftOnly v ch ih =>
    intro p t w hinv hres
    have h1 : treeSetLeft v p t =
        modifyAt (fun _ =>
          some (ETree.node (some w)
            [ETree.node (some v) [placeholder α, placeholder α], placeholder α])) p t := by
      rw [show treeSetLeft v p t = modifyAt (BinaryNodeMut.set_left v) p t from rfl,
        modifyAt_as_replace hres]
      rfl
    obtain ⟨t1, ht1⟩ := Option.isSome_iff_exists.mp
      (modifyAt_isSome (f := fun _ =>
        some (ETree.node (some w)
          [ETree.node (some v) [placeholder α, placeholder α], placeholder α])) hres rfl)
    have ht1' : treeSetLeft v p t = some t1 := by rw [h1, ht1]
    have hinv1 : StrongInv t1 :=
      modifyAt_strongInv (BinaryNodeMut.set_left_strongInv v) hinv ht1'
    have hres1 : resolve p t1 =
        some (ETree.node (some w)
          [ETree.node (some v) [placeholder α, placeholder α], placeholder α]) := by
      obtain ⟨_, s', _, hsA, hr1⟩ := modifyAt_some ht1
      obtain rfl := Option.some.inj hsA
      exact hr1
    have hresf : resolve (p ++ [Dir.first]) t1 =
        some (ETree.node (some v) [placeholder α, placeholder α]) := by
      rw [resolve_append, hres1]
      simp only [Option.some_bind]
      rfl
    obtain ⟨t2, sub2, ha, hb, hc, hd⟩ := ih (p ++ [Dir.first]) t1 v hinv1 hresf
    refine ⟨t2, ETree.node (some w) [sub2, placeholder α], ?_, hb, ?_, ?_⟩
    · show (treeSetLeft v p t).bind (applySpec ch (p ++ [Dir.first])) = some t2
      rw [ht1']
      simp only [Option.some_bind]
      exact ha
    · rw [modifyAt_append] at hc
      rw [replace_then_modify ht1] at hc
      rw [show modifyAt (fun _ => some sub2) [Dir.first]
          (ETree.node (some w)
            [ETree.node (some v) [placeholder α, placeholder α], placeholder α]) =
          some (ETree.node (some w) [sub2, placeholder α]) from rfl] at hc
      simp only [Option.some_bind] at hc
      exact hc
    · intro q
      cases q with
      | nil => rfl
      | cons s q' =>
        cases s with
        | L => rw [valueAt_node_L]; exact hd q'
        | R => rw [valueAt_node_R, valueAt_placeholder]; rfl
  | rightOnly v ch ih =>
    intro p t w hinv hres
    have hsr : BinaryNodeMut.set_right v
        (ETree.node (some w) [placeholder α, placeholder α]) =
        some (ETree.node (some w)
          [placeholder α, ETree.node (some v) [placeholder α, placeholder α]]) :=
      BinaryNodeMut.set_right_pair v (some w) (placeholder α) (placeholder α)
    have h1 : treeSetRight v p t =
        modifyAt (fun _ =>
          some (ETree.node (some w)
            [placeholder α, ETree.node (some v) [placeholder α, placeholder α]])) p t := by
      rw [show treeSetRight v p t = modifyAt (BinaryNodeMut.set_right v) p t from rfl,
        modifyAt_as_replace hres, hsr]
      rfl
    obtain ⟨t1, ht1⟩ := Option.isSome_iff_exists.mp
      (modifyAt_isSome (f := fun _ =>
        some (ETree.node (some w)
          [placeholder α, ETree.node (some v) [placeholder α, placeholder α]])) hres rfl)
    have ht1' : treeSetRight v p t = some t1 := by rw [h1, ht1]
    have hinv1 : StrongInv t1 :=
      modifyAt_strongInv (BinaryNodeMut.set_right_strongInv v) hinv ht1'
    have hres1 : resolve p t1 =
        some (ETree.node (some w)
          [placeholder α, ETree.node (some v) [placeholder α, placeholder α]]) := by
      obtain ⟨_, s', _, hsA, hr1⟩ := modifyAt_some ht1
      obtain rfl := Option.some.inj hsA
      exact hr1
    have hresf : resolve (p ++ [Dir.last]) t1 =
        some (ETree.node (some v) [placeholder α, placeholder α]) := by
      rw [resolve_append, hres1]
      simp only [Option.some_bind]
      rw [resolve_cons_last_eq
        (show (ETree.node (some w)
            [placeholder α, ETree.node (some v) [placeholder α, placeholder α]]).children.getLast?
          = some (ETree.node (some v) [placeholder α, placeholder α]) from rfl)]
      rfl
    obtain ⟨t2, sub2, ha, hb, hc, hd⟩ := ih (p ++ [Dir.last]) t1 v hinv1 hresf
    refine ⟨t2, ETree.node (some w) [placeholder α, sub2], ?_, hb, ?_, ?_⟩
    · show (treeSetRight v p t).bind (applySpec ch (p ++ [Dir.last])) = some t2
      rw [ht1']
      simp only [Option.some_bind]
      exact ha
    · rw [modifyAt_append] at hc
      rw [replace_then_modify ht1] at hc
      rw [show modifyAt (fun _ => some sub2) [Dir.last]
          (ETree.node (some w)
            [placeholder α, ETree.node (some v) [placeholder α, placeholder α]]) =
          some (ETree.node (some w) [placeholder α, sub2]) from rfl] at hc
      simp only [Option.some_bind] at hc
      exact hc
    · intro q
      cases q with
      | nil => rfl
      | cons s q' =>
        cases s with
        | L => rw [valueAt_node_L, valueAt_placeholder]; rfl
        | R => rw [valueAt_node_R]; exact hd q'
  | both lv lch rv rch ihl ihr =>
    intro p t w hinv hres
    have h1 : treeSetLeft lv p t =
        modifyAt (fun _ =>
          some (ETree.node (some w)
            [ETree.node (some lv) [placeholder α, placeholder α], placeholder α])) p t := by
      rw [show treeSetLeft lv p t = modifyAt (BinaryNodeMut.set_left lv) p t from rfl,
        modifyAt_as_replace hres]
      rfl
    obtain ⟨t1, ht1⟩ := Option.isSome_iff_exists.mp
      (modifyAt_isSome (f := fun _ =>
        some (ETree.node (some w)
          [ETree.node (some lv) [placeholder α, placeholder α], placeholder α])) hres rfl)
    have ht1' : treeSetLeft lv p t = some t1 := by rw [h1, ht1]
    have hinv1 : StrongInv t1 :=
      modifyAt_strongInv (BinaryNodeMut.set_left_strongInv lv) hinv ht1'
    have hres1 : resolve p t1 =
        some (ETree.node (some w)
          [ETree.node (some lv) [placeholder α, placeholder α], placeholder α]) := by
      obtain ⟨_, s', _, hsA, hr1⟩ := modifyAt_some ht1
      obtain rfl := Option.some.inj hsA
      exact hr1
    have hresf : resolve (p ++ [Dir.first]) t1 =
        some (ETree.node (some lv) [placeholder α, placeholder α]) := by
      rw [resolve_append, hres1]
      simp only [Option.some_bind]
      rfl
    obtain ⟨t2, subL, ha2, hb2, hc2, hd2⟩ := ihl (p ++ [Dir.first]) t1 lv hinv1 hresf
    have ht2rep : modifyAt (fun _ =>
        some (ETree.node (some w) [subL, placeholder α])) p t = some t2 := by
      rw [modifyAt_append] at hc2
      rw [replace_then_modify ht1] at hc2
      rw [show modifyAt (fun _ => some subL) [Dir.first]
          (ETree.node (some w)
            [ETree.node (some lv) [placeholder α, placeholder α], placeholder α]) =
          some (ETree.node (some w) [subL, placeholder α]) from rfl] at hc2
      simp only [Option.some_bind] at hc2
      exact hc2
    have hres2 : resolve p t2 = some (ETree.node (some w) [subL, placeholder α]) := by
      obtain ⟨_, s', _, hsA, hr1⟩ := modifyAt_some ht2rep
      obtain rfl := Option.some.inj hsA
      exact hr1
    have hsrB : BinaryNodeMut.set_right rv (ETree.node (some w) [subL, placeholder α]) =
        some (ETree.node (some w)
          [subL, ETree.node (some rv) [placeholder α, placeholder α]]) :=
      BinaryNodeMut.set_right_pair rv (some w) subL (placeholder α)
    have h3 : treeSetRight rv p t2 =
        modifyAt (fun _ =>
          some (ETree.node (some w)
            [subL, ETree.node (some rv) [placeholder α, placeholder α]])) p t2 := by
      rw [show treeSetRight rv p t2 = modifyAt (BinaryNodeMut.set_right rv) p t2 from rfl,
        modifyAt_as_replace hres2, hsrB]
      rfl
    obtain ⟨t3, ht3⟩ := Option.isSome_iff_exists.mp
      (modifyAt_isSome (f := fun _ =>
        some (ETree.node (some w)
          [subL, ETree.node (some rv) [placeholder α, placeholder α]])) hres2 rfl)
    have ht3' : treeSetRight rv p t2 = some t3 := by rw [h3, ht3]
    have hinv3 : StrongInv t3 :=
      modifyAt_strongInv (BinaryNodeMut.set_right_strongInv rv) hb2 ht3'
    have ht3rep : modifyAt (fun _ =>
        some (ETree.node (some w)
          [subL, ETree.node (some rv) [placeholder α, placeholder α]])) p t = some t3 := by
      rw [← replace_twice _ ht2rep]
      exact ht3
    have hres3 : resolve p t3 =
        some (ETree.node (some w)
          [subL, ETree.node (some rv) [placeholder α, placeholder α]]) := by
      obtain ⟨_, s', _, hsA, hr1⟩ := modifyAt_some ht3rep
      obtain rfl := Option.some.inj hsA
      exact hr1
    have hresf3 : resolve (p ++ [Dir.last]) t3 =
        some (ETree.node (some rv) [placeholder α, placeholder α]) := by
      rw [resolve_append, hres3]
      simp only [Option.some_bind]
      rw [resolve_cons_last_eq
        (show (ETree.node (some w)
            [subL, ETree.node (some rv) [placeholder α, placeholder α]]).children.getLast?
          = some (ETree.node (some rv) [placeholder α, placeholder α]) from rfl)]
      rfl
    obtain ⟨t4, subR, ha4, hb4, hc4, hd4⟩ := ihr (p ++ [Dir.last]) t3 rv hinv3 hresf3
    refine ⟨t4, ETree.node (some w) [subL, subR], ?_, hb4, ?_, ?_⟩
    · show ((((treeSetLeft lv p t).bind (applySpec lch (p ++ [Dir.first]))).bind
        (treeSetRight rv p)).bind (applySpec rch (p ++ [Dir.last]))) = some t4
      rw [ht1']
      simp only [Option.some_bind]
      rw [ha2]
      simp only [Option.some_bind]
      rw [ht3']
      simp only [Option.some_bind]
      exact ha4
    · rw [modifyAt_append] at hc4
      rw [replace_then_modify ht3rep] at hc4
      rw [show modifyAt (fun _ => some subR) [Dir.last]
          (ETree.node (some w)
            [subL, ETree.node (some rv) [placeholder α, placeholder α]]) =
          some (ETree.node (some w) [subL, subR]) from rfl] at hc4
      simp only [Option.some_bind] at hc4
      exact hc4
    · intro q
      cases q with
      | nil => rfl
      | cons s q' =>
        cases s with
        | L => rw [valueAt_node_L]; exact hd2 q'
        | R => rw [valueAt_node_R]; exact hd4 q'

/-! ### Claim theorems -/

/-- C1: Two-children shape invariant — in every tree reachable from
`BinaryTree::new` by any sequence of public operations, every populated node
has exactly two child nodes in storage (each possibly a placeholder) and no
node ever has exactly one child. -/
theorem claim1_shape_invariant {α : Type u} {t : ETree (Option α)}
    (h : Reachable t) : TwoOrZero t := by
  obtain ⟨p, hp⟩ := h
  exact strongInv_twoOrZero (rc_inv hp).1.1

theorem claim1_shape_invariant_witness : TwoOrZero (BinaryTree.new (0 : Nat)) :=
  claim1_shape_invariant ⟨[], RC.new 0⟩

/-- C4: `BinaryTree::new(v)` always succeeds (it is a total function) and
immediately afterwards `root().value()` is the value `v` passed to the
constructor. -/
theorem claim4_new_root_value {α : Type u} (v : α) :
    BinaryNodeRef.value (BinaryTree.root (BinaryTree.new v)) = some v := rfl

/-- C5: immediately after `BinaryTree::new(v)`, both `root().left()` and
`root().right()` are absent — the two pre-allocated child slots are
placeholders. -/
theorem claim5_new_children_absent {α : Type u} (v : α) :
    BinaryNodeRef.left (BinaryTree.root (BinaryTree.new v)) = VRes.absent ∧
    BinaryNodeRef.right (BinaryTree.root (BinaryTree.new v)) = VRes.absent :=
  ⟨rfl, rfl⟩

/-- C6: on every reachable tree, `value()` on any shared or exclusive view is
populated, and the internal `expect` branches of `left()`, `right()` and the
child accessors (`left_inner` / `right_inner`) are unreachable: no public
navigation returns the panic outcome.  Invariant violations are modelled as
the distinguished `panic` outcome, never as an absent-child result. -/
theorem claim6_no_panic {α : Type u} {t : ETree (Option α)} (h : Reachable t) :
    (∀ s, SharedView t s →
      (BinaryNodeRef.value s).isSome ∧ BinaryNodeRef.left s ≠ VRes.panic ∧
        BinaryNodeRef.right s ≠ VRes.panic) ∧
    (∀ p sub, RC t p → resolve p t = some sub →
      (BinaryNodeMut.value sub).isSome ∧ (BinaryNodeMut.left_inner sub).isSome ∧
        (BinaryNodeMut.right_inner sub).isSome ∧ BinaryNodeMut.left sub ≠ VRes.panic ∧
        BinaryNodeMut.right sub ≠ VRes.panic) := by
  obtain ⟨p0, hp0⟩ := h
  have hti := (rc_inv hp0).1
  constructor
  · intro s hs
    obtain ⟨hsinv, hspop⟩ := sharedView_inv hti.1 hti.2 hs
    obtain ⟨l, r, hlr⟩ := hsinv.pair hspop
    refine ⟨hspop, ?_, ?_⟩
    · rw [BinaryNodeRef.ref_left_of_head (show s.children.head? = some l by rw [hlr]; rfl)]
      cases l.value with
      | none => intro hh; exact VRes.noConfusion hh
      | some w => intro hh; exact VRes.noConfusion hh
    · rw [BinaryNodeRef.right_of_pair hlr]
      cases r.value with
      | none => intro hh; exact VRes.noConfusion hh
      | some w => intro hh; exact VRes.noConfusion hh
  · intro p sub hrc hres
    obtain ⟨_, sub2, hres2, hpop2⟩ := rc_inv hrc
    rw [hres] at hres2
    obtain rfl := Option.some.inj hres2
    have hsinv := resolve_strongInv hti.1 hres
    obtain ⟨l, r, hlr⟩ := hsinv.pair hpop2
    refine ⟨hpop2, ?_, ?_, ?_, ?_⟩
    · show (sub.children.head?).isSome
      rw [hlr]
      rfl
    · show (sub.children.getLast?).isSome
      rw [hlr]
      rfl
    · rw [BinaryNodeMut.left_of_head (show sub.children.head? = some l by rw [hlr]; rfl)]
      cases l.value with
      | none => intro hh; exact VRes.noConfusion hh
      | some w => intro hh; exact VRes.noConfusion hh
    · rw [BinaryNodeMut.right_of_getLast
        (show sub.children.getLast? = some r by rw [hlr]; rfl)]
      cases r.value with
      | none => intro hh; exact VRes.noConfusion hh
      | some w => intro hh; exact VRes.noConfusion hh

theorem claim6_no_panic_witness :
    (BinaryNodeRef.value (BinaryTree.new (0 : Nat))).isSome ∧
    BinaryNodeRef.left (BinaryTree.new (0 : Nat)) ≠ VRes.panic ∧
    BinaryNodeRef.right (BinaryTree.new (0 : Nat)) ≠ VRes.panic :=
  (claim6_no_panic ⟨[], RC.new 0⟩).1 (BinaryTree.new 0) SharedView.root

/-- C9: on every reachable shared view, `left()` (resp. `right()`) is present
with the first (resp. second) child exactly when that child's value slot is
populated, and is the absent indicator — not an error — exactly when that
child slot is a placeholder.  Shared reads are pure functions of the tree in
this embedding (they return no tree), so they cannot change the value
layout. -/
theorem claim9_shared_navigation {α : Type u} {t s : ETree (Option α)}
    (ht : Reachable t) (hs : SharedView t s) :
    (∀ c, BinaryNodeRef.left s = VRes.present c ↔
      (s.children.get? 0 = some c ∧ c.value.isSome)) ∧
    (BinaryNodeRef.left s = VRes.absent ↔
      (∃ c, s.children.get? 0 = some c ∧ c.value = none)) ∧
    (∀ c, BinaryNodeRef.right s = VRes.present c ↔
      (s.children.get? 1 = some c ∧ c.value.isSome)) ∧
    (BinaryNodeRef.right s = VRes.absent ↔
      (∃ c, s.children.get? 1 = some c ∧ c.value = none)) := by
  obtain ⟨p0, hp0⟩ := ht
  have hti := (rc_inv hp0).1
  obtain ⟨hsinv, hspop⟩ := sharedView_inv hti.1 hti.2 hs
  obtain ⟨l, r, hlr⟩ := hsinv.pair hspop
  have hhead : s.children.head? = some l := by rw [hlr]; rfl
  have hget0 : s.children.get? 0 = some l := by rw [hlr]; rfl
  have hget1 : s.children.get? 1 = some r := by rw [hlr]; rfl
  refine ⟨?_, ?_, ?_, ?_⟩
  · intro c
    constructor
    · exact BinaryNodeRef.ref_left_present
    · rintro ⟨hg, hcpop⟩
      rw [hget0] at hg
      have hcl : l = c := Option.some.inj hg
      subst hcl
      rw [BinaryNodeRef.ref_left_of_head hhead]
      cases hv : l.value with
      | none => rw [hv] at hcpop; cases hcpop
      | some w => simp only [hv]
  · constructor
    · exact BinaryNodeRef.ref_left_absent
    · rintro ⟨c, hg, hv⟩
      rw [hget0] at hg
      have hcl : l = c := Option.some.inj hg
      subst hcl
      rw [BinaryNodeRef.ref_left_of_head hhead]
      simp only [hv]
  · intro c
    constructor
    · exact BinaryNodeRef.ref_right_present
    · rintro ⟨hg, hcpop⟩
      rw [hget1] at hg
      have hcr : r = c := Option.some.inj hg
      subst hcr
      rw [BinaryNodeRef.right_of_pair hlr]
      cases hv : r.value with
      | none => rw [hv] at hcpop; cases hcpop
      | some w => simp only [hv]
  · constructor
    · exact BinaryNodeRef.ref_right_absent
    · rintro ⟨c, hg, hv⟩
      rw [hget1] at hg
      have hcr : r = c := Option.some.inj hg
      subst hcr
      rw [BinaryNodeRef.right_of_pair hlr]
      simp only [hv]

theorem claim9_shared_navigation_witness :
    BinaryNodeRef.left (BinaryTree.new (0 : Nat)) = VRes.absent :=
  ((claim9_shared_navigation ⟨[], RC.new 0⟩ SharedView.root).2.1).mpr
    ⟨placeholder Nat, rfl, rfl⟩

/-- The tree `BinaryTree::new(0)` after `root_mut().set_left(1)`. -/
def c2Tree1 : ETree (Option Nat) :=
  ETree.node (some 0)
    [ETree.node (some 1) [placeholder Nat, placeholder Nat], placeholder Nat]

/-- `c2Tree1` after `set_left(2)` on the view of its left child. -/
def c2Tree2 : ETree (Option Nat) :=
  ETree.node (some 0)
    [ETree.node (some 1)
      [ETree.node (some 2) [placeholder Nat, placeholder Nat], placeholder Nat],
     placeholder Nat]

/-- `c2Tree2` after `root_mut().set_left(9)`: the overwritten left child keeps
its populated child `2`. -/
def c2Tree3 : ETree (Option Nat) :=
  ETree.node (some 0)
    [ETree.node (some 9)
      [ETree.node (some 2) [placeholder Nat, placeholder Nat], placeholder Nat],
     placeholder Nat]

/-- The left child of `c2Tree3`. -/
def c2Child : ETree (Option Nat) :=
  ETree.node (some 9)
    [ETree.node (some 2) [placeholder Nat, placeholder Nat], placeholder Nat]

theorem rc_c2Tree2 : RC c2Tree2 [] := by
  have h0 : RC (BinaryTree.new (0 : Nat)) [] := RC.new 0
  have h1 : treeSetLeft 1 [] (BinaryTree.new (0 : Nat)) = some c2Tree1 := rfl
  have h2 : RC c2Tree1 ([] ++ [Dir.first]) := RC.setL 1 h0 h1
  have h3 : treeSetLeft 2 ([] ++ [Dir.first]) c2Tree1 = some c2Tree2 := rfl
  have h4 : RC c2Tree2 (([] ++ [Dir.first]) ++ [Dir.first]) := RC.setL 2 h2 h3
  exact RC.reroot h4

/-- C2 fails as stated: on the reachable tree `c2Tree2` whose root's left
slot is populated with a child that has a populated left child of its own,
`root_mut().set_left(9)` succeeds and sets the slot's value to `9`, but the
slot's `left()` afterwards is NOT absent — the populated grandchild `2`
survives, contradicting "that child's own left() and right() are both
absent". -/
theorem claim2_counterexample :
    RC c2Tree2 [] ∧
    treeSetLeft 9 [] c2Tree2 = some c2Tree3 ∧
    BinaryNodeMut.left c2Tree3 = VRes.present c2Child ∧
    c2Child.value = some 9 ∧
    BinaryNodeMut.left c2Child ≠ VRes.absent := by
  refine ⟨rc_c2Tree2, rfl, rfl, rfl, ?_⟩
  intro hc
  rw [show BinaryNodeMut.left c2Child =
    VRes.present (ETree.node (some 2) [placeholder Nat, placeholder Nat]) from rfl] at hc
  cases hc

/-- C2 (amended): for every reachable exclusive view `n`, `set_left(v)` always
succeeds, returns an exclusive view of the now-populated left slot, and
`n.left()` afterwards is present with value `v`; when the left slot was a
placeholder before the call (`n.left()` absent), the new child's own `left()`
and `right()` are both absent (its two children are fresh placeholders).
Symmetrically for `set_right`/`right()`. -/
theorem claim2_set_child {α : Type u} {t sub : ETree (Option α)} {p : List Dir} (v : α)
    (h : RC t p) (hres : resolve p t = some sub) :
    (∃ t' sub' l, treeSetLeft v p t = some t' ∧ RC t' (p ++ [Dir.first]) ∧
      resolve p t' = some sub' ∧ BinaryNodeMut.left sub' = VRes.present l ∧
      resolve (p ++ [Dir.first]) t' = some l ∧ l.value = some v ∧
      (BinaryNodeMut.left sub = VRes.absent →
        BinaryNodeMut.left l = VRes.absent ∧ BinaryNodeMut.right l = VRes.absent)) ∧
    (∃ t' sub' r, treeSetRight v p t = some t' ∧ RC t' (p ++ [Dir.last]) ∧
      resolve p t' = some sub' ∧ BinaryNodeMut.right sub' = VRes.present r ∧
      resolve (p ++ [Dir.last]) t' = some r ∧ r.value = some v ∧
      (BinaryNodeMut.right sub = VRes.absent →
        BinaryNodeMut.left r = VRes.absent ∧ BinaryNodeMut.right r = VRes.absent)) := by
  obtain ⟨⟨hinv, hroot⟩, sub2, hres2, hpop2⟩ := rc_inv h
  rw [hres] at hres2
  obtain rfl := Option.some.inj hres2
  have hsubinv := resolve_strongInv hinv hres
  obtain ⟨l0, r0, hlr, hsl, hsr⟩ := BinaryNodeMut.set_left_spec hsubinv hpop2 v
  constructor
  · obtain ⟨t', ht'⟩ := Option.isSome_iff_exists.mp
      (modifyAt_isSome (f := BinaryNodeMut.set_left v) hres (by rw [hsl]; rfl))
    obtain ⟨sub1, sub1', hres1, hf1, hres1'⟩ := modifyAt_some ht'
    rw [hres] at hres1
    obtain rfl := Option.some.inj hres1
    rw [hsl] at hf1
    obtain rfl := Option.some.inj hf1
    refine ⟨t', _, BinaryNodeMut.populate v l0, ht', RC.setL v h ht', hres1', ?_, ?_, ?_, ?_⟩
    · rw [BinaryNodeMut.left_of_head
        (show (ETree.node sub.value [BinaryNodeMut.populate v l0, r0]).children.head? =
          some (BinaryNodeMut.populate v l0) from rfl)]
      simp only [BinaryNodeMut.populate_value]
    · rw [resolve_append, hres1']
      simp only [Option.some_bind]
      rfl
    · exact BinaryNodeMut.populate_value v l0
    · intro habs
      obtain ⟨l1, hh1, hv1⟩ := BinaryNodeMut.left_absent habs
      rw [show sub.children.head? = some l0 by rw [hlr]; rfl] at hh1
      have : l0 = l1 := Option.some.inj hh1
      subst this
      have hl0nil : l0.children = [] :=
        (hsubinv.child (by rw [hlr]; exact List.mem_cons_self l0 [r0])).empty_of_none hv1
      rw [BinaryNodeMut.populate_of_nil hl0nil]
      exact ⟨rfl, rfl⟩
  · obtain ⟨t', ht'⟩ := Option.isSome_iff_exists.mp
      (modifyAt_isSome (f := BinaryNodeMut.set_right v) hres (by rw [hsr]; rfl))
    obtain ⟨sub1, sub1', hres1, hf1, hres1'⟩ := modifyAt_some ht'
    rw [hres] at hres1
    obtain rfl := Option.some.inj hres1
    rw [hsr] at hf1
    obtain rfl := Option.some.inj hf1
    refine ⟨t', _, BinaryNodeMut.populate v r0, ht', RC.setR v h ht', hres1', ?_, ?_, ?_, ?_⟩
    · rw [BinaryNodeMut.right_of_getLast
        (show (ETree.node sub.value [l0, BinaryNodeMut.populate v r0]).children.getLast? =
          some (BinaryNodeMut.populate v r0) from rfl)]
      simp only [BinaryNodeMut.populate_value]
    · rw [resolve_append, hres1']
      simp only [Option.some_bind]
      rw [resolve_cons_last_eq
        (show (ETree.node sub.value [l0, BinaryNodeMut.populate v r0]).children.getLast? =
          some (BinaryNodeMut.populate v r0) from rfl)]
      rfl
    · exact BinaryNodeMut.populate_value v r0
    · intro habs
      obtain ⟨r1, hh1, hv1⟩ := BinaryNodeMut.right_absent habs
      rw [show sub.children.getLast? = some r0 by rw [hlr]; rfl] at hh1
      have : r0 = r1 := Option.some.inj hh1
      subst this
      have hr0nil : r0.children = [] :=
        (hsubinv.child (by rw [hlr]; simp)).empty_of_none hv1
      rw [BinaryNodeMut.populate_of_nil hr0nil]
      exact ⟨rfl, rfl⟩

theorem claim2_set_child_witness :
    (∃ t' sub' l, treeSetLeft 1 [] (BinaryTree.new (0 : Nat)) = some t' ∧
      RC t' ([] ++ [Dir.first]) ∧
      resolve [] t' = some sub' ∧ BinaryNodeMut.left sub' = VRes.present l ∧
      resolve ([] ++ [Dir.first]) t' = some l ∧ l.value = some 1 ∧
      (BinaryNodeMut.left (BinaryTree.new (0 : Nat)) = VRes.absent →
        BinaryNodeMut.left l = VRes.absent ∧ BinaryNodeMut.right l = VRes.absent)) ∧
    (∃ t' sub' r, treeSetRight 1 [] (BinaryTree.new (0 : Nat)) = some t' ∧
      RC t' ([] ++ [Dir.last]) ∧
      resolve [] t' = some sub' ∧ BinaryNodeMut.right sub' = VRes.present r ∧
      resolve ([] ++ [Dir.last]) t' = some r ∧ r.value = some 1 ∧
      (BinaryNodeMut.right (BinaryTree.new (0 : Nat)) = VRes.absent →
        BinaryNodeMut.left r = VRes.absent ∧ BinaryNodeMut.right r = VRes.absent)) :=
  claim2_set_child 1 (RC.new 0) rfl

/-- C3: overwrite preserves descendants — on a reachable exclusive view whose
left slot is already populated, `set_left(v2)` replaces only the slot's value:
the node found in that slot afterwards has value `v2` and exactly the child
list (hence all deeper descendants) it had before; symmetrically for
`set_right`. -/
theorem claim3_overwrite_preserves_descendants {α : Type u} {t sub : ETree (Option α)}
    {p : List Dir} (v2 : α) (h : RC t p) (hres : resolve p t = some sub) :
    (∀ l, BinaryNodeMut.left sub = VRes.present l →
      ∃ t', treeSetLeft v2 p t = some t' ∧
        resolve (p ++ [Dir.first]) t' = some (ETree.node (some v2) l.children)) ∧
    (∀ r, BinaryNodeMut.right sub = VRes.present r →
      ∃ t', treeSetRight v2 p t = some t' ∧
        resolve (p ++ [Dir.last]) t' = some (ETree.node (some v2) r.children)) := by
  obtain ⟨⟨hinv, hroot⟩, sub2, hres2, hpop2⟩ := rc_inv h
  rw [hres] at hres2
  obtain rfl := Option.some.inj hres2
  have hsubinv := resolve_strongInv hinv hres
  obtain ⟨l0, r0, hlr, hsl, hsr⟩ := BinaryNodeMut.set_left_spec hsubinv hpop2 v2
  constructor
  · intro l hl
    obtain ⟨hh, hlpop⟩ := BinaryNodeMut.left_present hl
    rw [show sub.children.head? = some l0 by rw [hlr]; rfl] at hh
    have : l0 = l := Option.some.inj hh
    subst this
    have hlne : l0.children ≠ [] := by
      have hinvl0 := hsubinv.child (show l0 ∈ sub.children by
        rw [hlr]; exact List.mem_cons_self l0 [r0])
      obtain ⟨a, b, hab⟩ := hinvl0.pair hlpop
      rw [hab]
      exact List.cons_ne_nil a [b]
    obtain ⟨t', ht'⟩ := Option.isSome_iff_exists.mp
      (modifyAt_isSome (f := BinaryNodeMut.set_left v2) hres (by rw [hsl]; rfl))
    obtain ⟨sub1, sub1', hres1, hf1, hres1'⟩ := modifyAt_some ht'
    rw [hres] at hres1
    obtain rfl := Option.some.inj hres1
    rw [hsl] at hf1
    obtain rfl := Option.some.inj hf1
    refine ⟨t', ht', ?_⟩
    rw [resolve_append, hres1']
    simp only [Option.some_bind]
    rw [show resolve [Dir.first]
        (ETree.node sub.value [BinaryNodeMut.populate v2 l0, r0]) =
        some (BinaryNodeMut.populate v2 l0) from rfl]
    rw [BinaryNodeMut.populate_of_ne_nil hlne]
  · intro r hr
    obtain ⟨hh, hrpop⟩ := BinaryNodeMut.right_present hr
    rw [show sub.children.getLast? = some r0 by rw [hlr]; rfl] at hh
    have : r0 = r := Option.some.inj hh
    subst this
    have hrne : r0.children ≠ [] := by
      have hinvr0 := hsubinv.child (show r0 ∈ sub.children by rw [hlr]; simp)
      obtain ⟨a, b, hab⟩ := hinvr0.pair hrpop
      rw [hab]
      exact List.cons_ne_nil a [b]
    obtain ⟨t', ht'⟩ := Option.isSome_iff_exists.mp
      (modifyAt_isSome (f := BinaryNodeMut.set_right v2) hres (by rw [hsr]; rfl))
    obtain ⟨sub1, sub1', hres1, hf1, hres1'⟩ := modifyAt_some ht'
    rw [hres] at hres1
    obtain rfl := Option.some.inj hres1
    rw [hsr] at hf1
    obtain rfl := Option.some.inj hf1
    refine ⟨t', ht', ?_⟩
    rw [resolve_append, hres1']
    simp only [Option.some_bind]
    rw [resolve_cons_last_eq
      (show (ETree.node sub.value [l0, BinaryNodeMut.populate v2 r0]).children.getLast? =
        some (BinaryNodeMut.populate v2 r0) from rfl)]
    rw [show resolve [] (BinaryNodeMut.populate v2 r0) =
      some (BinaryNodeMut.populate v2 r0) from rfl]
    rw [BinaryNodeMut.populate_of_ne_nil hrne]

theorem claim3_overwrite_preserves_descendants_witness :
    ∃ t', treeSetLeft 7 [] c2Tree2 = some t' ∧
      resolve ([] ++ [Dir.first]) t' =
        some (ETree.node (some 7)
          (ETree.node (some 1)
            [ETree.node (some 2) [placeholder Nat, placeholder Nat],
             placeholder Nat]).children) :=
  (claim3_overwrite_preserves_descendants 7 rc_c2Tree2 rfl).1
    (ETree.node (some 1)
      [ETree.node (some 2) [placeholder Nat, placeholder Nat], placeholder Nat]) rfl

/-- C10: locality of `set_left`/`set_right` — on every reachable exclusive
view at path `p`, a successful `set_left v` leaves the value layout unchanged
at every position that does not lie inside the view's left-child subtree
(position `sidesOf p ++ [L]`); symmetrically `set_right` changes nothing
outside the right-child subtree. -/
theorem claim10_set_frame {α : Type u} {t : ETree (Option α)} {p : List Dir} (v : α)
    (h : RC t p) :
    (∀ t', treeSetLeft v p t = some t' →
      ∀ q, ¬ Seg (sidesOf p ++ [Side.L]) q → valueAt q t' = valueAt q t) ∧
    (∀ t', treeSetRight v p t = some t' →
      ∀ q, ¬ Seg (sidesOf p ++ [Side.R]) q → valueAt q t' = valueAt q t) := by
  have hinv := (rc_inv h).1.1
  exact ⟨fun t' ht' => modifyAt_frame (BinaryNodeMut.set_left_frame v) hinv ht',
    fun t' ht' => modifyAt_frame (BinaryNodeMut.set_right_frame v) hinv ht'⟩

theorem claim10_set_frame_witness :
    valueAt [Side.R] c2Tree3 = valueAt [Side.R] c2Tree2 :=
  (claim10_set_frame 9 rc_c2Tree2).1 c2Tree3 rfl [Side.R] (by decide)

/-- C7: construction-syntax round trip — for every nested construction
specification, the `binary_tree!` form (modelled by `macroBuild`, the exact
desugaring into `BinaryTree::new` followed by `set_left`/`set_right` calls on
the returned views) succeeds and produces a tree whose value layout at every
reachable position is exactly the layout prescribed for that explicit
construction (`specLayout`, modelled from the spec), including the same
absent slots. -/
theorem claim7_construction_roundtrip {α : Type u} (r : α) (ch : CSpec α) :
    ∃ t, macroBuild r ch = some t ∧ ∀ q, valueAt q t = specLayout r ch q := by
  obtain ⟨t', sub', ha, _, hc, hd⟩ :=
    applySpec_ok ch [] (BinaryTree.new r) r (strongInv_new r) rfl
  rw [modifyAt_nil] at hc
  have hts : t' = sub' := (Option.some.inj hc).symm
  subst hts
  exact ⟨t', ha, hd⟩

/-- The nested specification of the worked example from the spec and the
crate's `complicated_tree_works` test. -/
def exSpec : CSpec String :=
  CSpec.both "left" CSpec.empty "right"
    (CSpec.rightOnly "rightright" (CSpec.leftOnly "rightrightleft" CSpec.empty))

/-- The tree the worked example must produce. -/
def exTree : ETree (Option String) :=
  ETree.node (some "root")
    [ETree.node (some "left") [placeholder String, placeholder String],
     ETree.node (some "right")
       [placeholder String,
        ETree.node (some "rightright")
          [ETree.node (some "rightrightleft") [placeholder String, placeholder String],
           placeholder String]]]

/-- C8: worked example — building with root `"root"`, left leaf `"left"`,
right `"right"` whose right child is `"rightright"` whose left child is
`"rightrightleft"` yields exactly the documented observations:
`root().value() == "root"`; `root().left()` has value `"left"` and two absent
children; `root().right()` has value `"right"` and an absent left child;
`root().right().right()` has value `"rightright"`; and
`root().right().right().left()` has value `"rightrightleft"` with two absent
children. -/
theorem claim8_worked_example :
    macroBuild "root" exSpec = some exTree ∧
    BinaryNodeRef.value (BinaryTree.root exTree) = some "root" ∧
    (∃ l, BinaryNodeRef.left exTree = VRes.present l ∧
      BinaryNodeRef.value l = some "left" ∧
      BinaryNodeRef.left l = VRes.absent ∧ BinaryNodeRef.right l = VRes.absent) ∧
    (∃ r rr rrl, BinaryNodeRef.right exTree = VRes.present r ∧
      BinaryNodeRef.value r = some "right" ∧ BinaryNodeRef.left r = VRes.absent ∧
      BinaryNodeRef.right r = VRes.present rr ∧
      BinaryNodeRef.value rr = some "rightright" ∧
      BinaryNodeRef.left rr = VRes.present rrl ∧
      BinaryNodeRef.value rrl = some "rightrightleft" ∧
      BinaryNodeRef.left rrl = VRes.absent ∧ BinaryNodeRef.right rrl = VRes.absent) := by
  refine ⟨rfl, rfl, ⟨ETree.node (some "left") [placeholder String, placeholder String],
    rfl, rfl, rfl, rfl⟩, ?_⟩
  refine ⟨ETree.node (some "right")
      [placeholder String,
       ETree.node (some "rightright")
         [ETree.node (some "rightrightleft") [placeholder String, placeholder String],
          placeholder String]],
    ETree.node (some "rightright")
      [ETree.node (some "rightrightleft") [placeholder String, placeholder String],
       placeholder String],
    ETree.node (some "rightrightleft") [placeholder String, placeholder String],
    rfl, rfl, rfl, rfl, rfl, rfl, rfl, rfl, rfl⟩

end EgoBinaryTree
